import Mathlib

/-
  QupZilla autofill: a verification development for
  src/lib/autofill/pageformcompleter.cpp (class PageFormCompleter).

  Conventions of the embedding
  * QByteArray and QString are both lists of characters, a byte being the
    character with its code. The implicit conversion of a QByteArray to a
    QString is toQString (it stops at the first 0 byte), the conversion back
    is toByteArray.
  * The QtWebKit document is an explicit value: a tree of frames, each frame
    holding its form elements and input elements in document order.
    An input element carries its type, name and value attributes and its
    live value (the result of evaluateJavaScript("this.value")).
  * A CSS selector is the predicate it denotes on input elements:
    [type="x"] is equality of the type attribute, [name*="x"] is substring
    containment in the name attribute. A selector the engine does not accept
    selects nothing (findAll returns the empty collection).
  * QT_VERSION is the boolean parameter qt5 of createQueryItems; both
    preprocessor branches are embedded.
  * The Qt URL classes are not part of the repository; their query decoding is
    written out from the description of the decoder in the specification.
-/

namespace PageFormCompleter

/- ## Strings -/

abbrev QString := List Char
abbrev QByteArray := List Char

/-- QueryItem is QPair<QString, QString>. -/
abbrev QueryItem := QString × QString

/-- QueryItems is QList<QueryItem>. -/
abbrev QueryItems := List QueryItem

/-- QByteArray::startsWith: pat is an initial segment of s. -/
def startsWith : List Char → List Char → Bool
  | _, [] => true
  | [], _ :: _ => false
  | c :: s, p :: pat => c == p && startsWith s pat

/-- QByteArray::indexOf / QString::indexOf: offset of the first occurrence of
pat in s; none stands for the result -1. -/
def indexOf : List Char → List Char → Option Nat
  | [], pat => if pat.isEmpty then some 0 else none
  | c :: cs, pat =>
    if startsWith (c :: cs) pat then some 0
    else (indexOf cs pat).map (· + 1)

/-- QByteArray::contains(QByteArray): indexOf is not -1. -/
def containsSeq (s pat : List Char) : Bool := (indexOf s pat).isSome

/-- QChar::isSpace: the ASCII white space characters, NEL, the no-break space and
the Unicode separators. -/
def isSpace (c : Char) : Bool :=
  let n := c.toNat
  n == 0x20 || (0x09 ≤ n && n ≤ 0x0d) || n == 0x85 || n == 0xa0 || n == 0x1680 ||
  (0x2000 ≤ n && n ≤ 0x200a) || n == 0x2028 || n == 0x2029 || n == 0x202f ||
  n == 0x205f || n == 0x3000

/-- QString::trimmed: white space removed from both ends. -/
def trimmed (s : QString) : QString :=
  ((s.dropWhile isSpace).reverse.dropWhile isSpace).reverse

/- ## The document -/

/-- An input element of the page, as far as the completer reads or writes it:
attribute("type"), attribute("name"), the value attribute written by
setAttribute("value", ..) and the live value evaluateJavaScript("this.value").
An absent attribute reads as the empty string. -/
structure InputElement where
  typeAttr : QString
  name : QString
  value : QString
  liveValue : QString
deriving DecidableEq, Repr

/-- A form element: its descendant input elements in document order. -/
structure FormElement where
  inputs : List InputElement
deriving DecidableEq, Repr

/-- An element of a frame's document that the completer can select: an input
outside any form, or a form together with its inputs. -/
inductive Node where
  | input (e : InputElement)
  | form (f : FormElement)
deriving DecidableEq, Repr

/-- QWebFrame: the frame's document (in document order) and its child frames. -/
inductive QWebFrame where
  | mk (nodes : List Node) (childFrames : List QWebFrame)

/-- The document of a frame. -/
def QWebFrame.nodes : QWebFrame → List Node
  | .mk nodes _ => nodes

/-- QWebFrame::childFrames. -/
def QWebFrame.childFrames : QWebFrame → List QWebFrame
  | .mk _ childFrames => childFrames

/-- QWebPage, reduced to its main frame. -/
structure QWebPage where
  mainFrame : QWebFrame

/-- frame->findAllElements("form"). -/
def QWebFrame.findAllForms (frame : QWebFrame) : List FormElement :=
  frame.nodes.filterMap fun n =>
    match n with
    | .form f => some f
    | .input _ => none

/-- frame->findAllElements("input"): every input of the frame, those inside
forms included, in document order. -/
def QWebFrame.findAllInputs (frame : QWebFrame) : List InputElement :=
  frame.nodes.flatMap fun n =>
    match n with
    | .form f => f.inputs
    | .input e => [e]

/-- QWebElement::findAll(selector) on a form, for a selector of input elements
given as its matching predicate. -/
def FormElement.findAll (form : FormElement) (selector : InputElement → Bool) :
    List InputElement :=
  form.inputs.filter selector

/-- Number of frames in a list of frame trees (the measure of the frame walk). -/
def frameCount : List QWebFrame → Nat
  | [] => 0
  | .mk _ childFrames :: rest => 1 + frameCount childFrames + frameCount rest

/-- The while loop of getAllElementsFromPage: frames is the queue, list the
collection built so far. -/
def getAllElementsLoop {α : Type} (findAllElements : QWebFrame → List α) :
    List QWebFrame → List α → List α
  | [], list => list
  | frame :: frames, list =>
    getAllElementsLoop findAllElements (frames ++ frame.childFrames)
      (list ++ findAllElements frame)
termination_by frames _ => frameCount frames
decreasing_by
  have happ : ∀ a b : List QWebFrame, frameCount (a ++ b) = frameCount a + frameCount b := by
    intro a b
    induction a with
    | nil => simp [frameCount]
    | cons f rest ih =>
      cases f with
      | mk nodes cs => simp [frameCount, ih]; omega
  cases frame with
  | mk nodes cs =>
    simp only [QWebFrame.childFrames, happ, frameCount]
    omega

/-- PageFormCompleter::getAllElementsFromPage; the selector is given by the
frame query it stands for (findAllForms for "form", findAllInputs for "input"). -/
def getAllElementsFromPage {α : Type} (page : QWebPage)
    (findAllElements : QWebFrame → List α) : List α :=
  getAllElementsLoop findAllElements [page.mainFrame] []

/- ## The URL query decoder (QUrl, QUrlQuery) -/

/-- Value of a hexadecimal digit. -/
def hexValue (c : Char) : Option Nat :=
  let n := c.toNat
  if 48 ≤ n ∧ n ≤ 57 then some (n - 48)
  else if 97 ≤ n ∧ n ≤ 102 then some (n - 87)
  else if 65 ≤ n ∧ n ≤ 70 then some (n - 55)
  else none

/-- Modelled from the spec: the percent-decoding primitive of the Qt URL classes
(not part of the repository), "percent-decode both key and value": every
%HH with two hexadecimal digits becomes the character with that code, any
other character stands for itself. -/
def fromPercentEncoding : List Char → List Char
  | [] => []
  | c :: h :: l :: rest =>
    if c = '%' then
      match hexValue h, hexValue l with
      | some a, some b => Char.ofNat (16 * a + b) :: fromPercentEncoding rest
      | _, _ => c :: fromPercentEncoding (h :: l :: rest)
    else c :: fromPercentEncoding (h :: l :: rest)
  | c :: rest => c :: fromPercentEncoding rest

/-- The segments of a query string between the pair delimiters '&'. As in the
scanning loop of QUrl::queryItems, an empty segment between two delimiters is
kept and nothing follows a trailing delimiter. -/
def splitPairs : List Char → List (List Char)
  | [] => []
  | c :: cs =>
    if c = '&' then [] :: splitPairs cs
    else
      match splitPairs cs with
      | [] => [[c]]
      | seg :: segs => (c :: seg) :: segs

/-- One segment cut at its first value delimiter '=': the key, and the value
when the delimiter is there. -/
def splitValue : List Char → List Char × Option (List Char)
  | [] => ([], none)
  | c :: cs =>
    if c = '=' then ([], some cs)
    else ((c :: (splitValue cs).1), (splitValue cs).2)

/-- Modelled from the spec: QUrl::fromEncoded("http://foo.com/?" + data) followed
by queryItems() (Qt, not part of the repository), "split on &, split each
segment on the first =, percent-decode both key and value". The query of the
URL ends where its fragment starts, at the first '#'; a segment without '='
has the empty value. -/
def queryItems (data : QByteArray) : QueryItems :=
  (splitPairs (data.takeWhile (· != '#'))).map fun seg =>
    (fromPercentEncoding (splitValue seg).1,
     fromPercentEncoding ((splitValue seg).2.getD []))

/-- QString::replace(before, after) and QByteArray::replace for characters. -/
def replaceChar (before after : Char) (s : List Char) : List Char :=
  s.map fun c => if c = before then after else c

/-- PageFormCompleter::createQueryItems. The flag qt5 stands for
QT_VERSION >= 0x050000: Qt 5 translates '+' to a space in the decoded keys
and values, Qt 4 in the payload before it is decoded. -/
def createQueryItems (qt5 : Bool) (data : QByteArray) : QueryItems :=
  if qt5 then
    (queryItems data).map fun item =>
      (replaceChar '+' ' ' item.1, replaceChar '+' ' ' item.2)
  else
    queryItems (replaceChar '+' ' ' data)

/- ## Multipart payloads -/

/-- The literal "------WebKitFormBoundary". -/
def boundaryMarker : List Char := "------WebKitFormBoundary".toList

/-- The literal prefix name=" of the pattern. -/
def namePattern : List Char := "name=\"".toList

/-- QRegExp("name=\"(.*)------WebKitFormBoundary") in minimal mode, searched in
s from its start (rx.indexIn): the match begins at the first occurrence of
name=" and ends with the first boundary marker after it. The result is
(offset of the match, rx.cap(1), rx.matchedLength()); none stands for -1. -/
def rxIndexIn (s : List Char) : Option (Nat × List Char × Nat) :=
  match indexOf s namePattern with
  | none => none
  | some i =>
    match indexOf (s.drop (i + namePattern.length)) boundaryMarker with
    | none => none
    | some j =>
      some (i, (s.drop (i + namePattern.length)).take j,
        namePattern.length + j + boundaryMarker.length)

/-- QString(const QByteArray&), the implicit conversion where data is handed to
rx.indexIn (line 167): the bytes in front of the first 0 byte, each read as the
character with its code. Both Qt versions read an ASCII byte so; Qt 4 reads
every byte so (Latin-1), Qt 5 decodes the bytes from 0x80 on as UTF-8, which is
not followed here: what is proved of converted payloads is stated for payloads
of ASCII bytes. -/
def toQString (data : QByteArray) : QString := data.takeWhile (· != '\x00')

/-- QByteArray::append(const QString&), the implicit conversion of line 183: each
character written as the byte with its code (exact for ASCII characters in
both Qt versions). -/
def toByteArray (s : QString) : QByteArray := s

/-- The while loop of convertWebKitFormBoundaryIfNecessary on the part of the
string QString(data) from pos on; the result is what the loop appends to
formatedData. -/
def convertLoop (s : QString) : QByteArray :=
  match h : rxIndexIn s with
  | none => []
  | some (i, string, len) =>
    match indexOf string ['"'] with
    | none => convertLoop (s.drop (i + len))
    | some endOfAttributeName =>
      let attrName := string.take endOfAttributeName
      let attrValue :=
        (trimmed (string.drop (endOfAttributeName + 1))).filter (· != '\n')
      if attrName.isEmpty || attrValue.isEmpty then convertLoop (s.drop (i + len))
      else toByteArray (attrName ++ ['='] ++ attrValue ++ ['&']) ++
        convertLoop (s.drop (i + len))
termination_by s.length
decreasing_by
  all_goals
    have hl : 0 < len ∧ 0 < s.length := by
      unfold rxIndexIn at h
      cases s with
      | nil => simp [indexOf, namePattern] at h
      | cons c cs =>
        split at h
        · simp at h
        · split at h
          · simp at h
          · simp only [Option.some.injEq, Prod.mk.injEq] at h
            obtain ⟨_, _, h3⟩ := h
            simp [namePattern] at h3
            constructor
            · omega
            · simp
    simp only [List.length_drop]
    omega

/-- PageFormCompleter::convertWebKitFormBoundaryIfNecessary. -/
def convertWebKitFormBoundaryIfNecessary (data : QByteArray) : QByteArray :=
  if !containsSeq data boundaryMarker then data
  else convertLoop (toQString data)

/- ## Credential extraction -/

/-- PageFormData: the record returned by extractFormData; its last field is the
payload after convertWebKitFormBoundaryIfNecessary. -/
structure PageFormData where
  found : Bool
  username : QString
  password : QString
  normalizedPayload : QByteArray
deriving DecidableEq, Repr

/-- The for loop of queryItemsContains: the first item whose key is
attributeName decides. -/
def queryItemsLookup (attributeName attributeValue : QString) : QueryItems → Bool
  | [] => false
  | item :: rest =>
    if item.1 = attributeName then item.2 == attributeValue
    else queryItemsLookup attributeName attributeValue rest

/-- PageFormCompleter::queryItemsContains. -/
def queryItemsContains (queryItems : QueryItems) (attributeName attributeValue : QString) :
    Bool :=
  if attributeName.isEmpty || attributeValue.isEmpty then false
  else queryItemsLookup attributeName attributeValue queryItems

/-- Selector input[type="password"]. -/
def passwordSelector (e : InputElement) : Bool := e.typeAttr == "password".toList

/-- Selector input[type="text"][name*="user"]. -/
def textUserSelector (e : InputElement) : Bool :=
  e.typeAttr == "text".toList && containsSeq e.name "user".toList

/-- Selector input[type="text"][name*="name"]. -/
def textNameSelector (e : InputElement) : Bool :=
  e.typeAttr == "text".toList && containsSeq e.name "name".toList

/-- Selector input[type="text"]. -/
def textSelector (e : InputElement) : Bool := e.typeAttr == "text".toList

/-- Selector input[type="email"]. -/
def emailSelector (e : InputElement) : Bool := e.typeAttr == "email".toList

/-- Selector input:not([type="hidden"][type="password"]). The argument of :not is
a compound of two attribute selectors; the selector engine of QtWebKit
(Selectors Level 3) accepts a simple selector only inside :not(), so this
selector is invalid, findAll returns the empty collection and no element is
selected. -/
def fallbackSelector (_e : InputElement) : Bool := false

/-- The selector list of findUsername, in the order it is built. -/
def usernameSelectors : List (InputElement → Bool) :=
  [textUserSelector, textNameSelector, textSelector, emailSelector, fallbackSelector]

/-- The inner foreach of findUsername: the first element with non-empty name
and live value. -/
def findUsernameIn : List InputElement → Option QueryItem
  | [] => none
  | element :: rest =>
    if !element.name.isEmpty && !element.liveValue.isEmpty then
      some (element.name, element.liveValue)
    else findUsernameIn rest

/-- The outer foreach of findUsername over the selectors; QueryItem() when no
selector yields an element. -/
def findUsernameLoop (form : FormElement) : List (InputElement → Bool) → QueryItem
  | [] => ([], [])
  | selector :: rest =>
    match findUsernameIn (form.findAll selector) with
    | some item => item
    | none => findUsernameLoop form rest

/-- PageFormCompleter::findUsername. -/
def findUsername (form : FormElement) : QueryItem :=
  findUsernameLoop form usernameSelectors

/-- The local variables usernameValue and passwordValue of extractFormData. -/
structure Credentials where
  usernameValue : QString
  passwordValue : QString
deriving DecidableEq, Repr

/-- The inner foreach of extractFormData over the password inputs of one form.
The boolean is the local flag found (the loop was left by break). -/
def scanInputs (queryItems : QueryItems) (formElement : FormElement) :
    List InputElement → Credentials → Credentials × Bool
  | [], st => (st, false)
  | inputElement :: rest, st =>
    if queryItemsContains queryItems inputElement.name inputElement.liveValue then
      if queryItemsContains queryItems (findUsername formElement).1
          (findUsername formElement).2 then
        (⟨(findUsername formElement).2, inputElement.liveValue⟩, true)
      else scanInputs queryItems formElement rest ⟨st.usernameValue, inputElement.liveValue⟩
    else scanInputs queryItems formElement rest st

/-- The outer foreach of extractFormData over all forms of the page. -/
def scanForms (queryItems : QueryItems) : List FormElement → Credentials → Credentials
  | [], st => st
  | formElement :: rest, st =>
    if (scanInputs queryItems formElement (formElement.findAll passwordSelector) st).2 then
      (scanInputs queryItems formElement (formElement.findAll passwordSelector) st).1
    else
      scanForms queryItems rest
        (scanInputs queryItems formElement (formElement.findAll passwordSelector) st).1

/-- PageFormCompleter::extractFormData on the page m_page. -/
def extractFormData (qt5 : Bool) (page : QWebPage) (postData : QByteArray) : PageFormData :=
  let data := convertWebKitFormBoundaryIfNecessary postData
  let formData : PageFormData := ⟨false, [], [], data⟩
  if data.isEmpty then formData
  else if !data.contains '=' then formData
  else
    let allForms := getAllElementsFromPage page QWebFrame.findAllForms
    let queryItems := createQueryItems qt5 data
    let st := scanForms queryItems allForms ⟨[], []⟩
    if st.passwordValue.isEmpty then formData
    else ⟨true, st.usernameValue, st.passwordValue, data⟩

/- ## The scan order of extractFormData -/

/-- The scan order of the two nested loops: the forms in collection order, each
paired with its password inputs in document order. -/
def passwordScan (forms : List FormElement) : List (FormElement × InputElement) :=
  forms.flatMap fun f => (f.findAll passwordSelector).map fun e => (f, e)

/-- A password input is matched: its (name, live value) pair is accepted by
queryItemsContains. -/
def passwordMatches (queryItems : QueryItems) (e : InputElement) : Bool :=
  queryItemsContains queryItems e.name e.liveValue

/-- The username candidate of a form validates: the pair returned by findUsername
is accepted by queryItemsContains. -/
def usernameValidates (queryItems : QueryItems) (f : FormElement) : Bool :=
  queryItemsContains queryItems (findUsername f).1 (findUsername f).2

/-- The two nested loops of extractFormData as one loop over the scan order. -/
def scanFlat (queryItems : QueryItems) :
    List (FormElement × InputElement) → Credentials → Credentials × Bool
  | [], st => (st, false)
  | x :: rest, st =>
    if passwordMatches queryItems x.2 then
      if usernameValidates queryItems x.1 then
        (⟨(findUsername x.1).2, x.2.liveValue⟩, true)
      else scanFlat queryItems rest ⟨st.usernameValue, x.2.liveValue⟩
    else scanFlat queryItems rest st

/- ## Payloads written from pairs -/

/-- No character of s is one of chars. -/
def avoids (chars s : List Char) : Bool := s.all fun c => !chars.contains c

/-- The payload k1=v1&k2=v2&...&kn=vn of a list of pairs, written verbatim. -/
def joinPairs : List (List Char × List Char) → List Char
  | [] => []
  | [kv] => kv.1 ++ '=' :: kv.2
  | kv :: rest => (kv.1 ++ '=' :: kv.2) ++ '&' :: joinPairs rest

/- ## Example documents -/

/-- A login form: a text input user_login holding "alice" and a password input
pw holding "secret". -/
def loginForm : FormElement :=
  ⟨[⟨"text".toList, "user_login".toList, [], "alice".toList⟩,
    ⟨"password".toList, "pw".toList, [], "secret".toList⟩]⟩

/-- A page whose only frame holds the login form. -/
def loginPage : QWebPage := ⟨.mk [.form loginForm] []⟩

/-- A page whose only form holds one password input pw with live value "b". -/
def singlePasswordPage : QWebPage :=
  ⟨.mk [.form ⟨[⟨"password".toList, "pw".toList, [], "b".toList⟩]⟩] []⟩

/-- A page with two forms, each holding a text input and a password input:
(usr1 = "alice", pw1 = "s1") and (usr2 = "bob", pw2 = "s2"). -/
def twoFormPage : QWebPage :=
  ⟨.mk [.form ⟨[⟨"text".toList, "usr1".toList, [], "alice".toList⟩,
                ⟨"password".toList, "pw1".toList, [], "s1".toList⟩]⟩,
        .form ⟨[⟨"text".toList, "usr2".toList, [], "bob".toList⟩,
                ⟨"password".toList, "pw2".toList, [], "s2".toList⟩]⟩] []⟩

/-- A form with a text input fullname holding "Al" in front of a text input
username holding "alice". -/
def nameBeforeUserForm : FormElement :=
  ⟨[⟨"text".toList, "fullname".toList, [], "Al".toList⟩,
    ⟨"text".toList, "username".toList, [], "alice".toList⟩]⟩

/-- The login form with the live password "------WebKitFormBoundary". -/
def markerLoginForm : FormElement :=
  ⟨[⟨"text".toList, "user_login".toList, [], "alice".toList⟩,
    ⟨"password".toList, "pw".toList, [], "------WebKitFormBoundary".toList⟩]⟩

/-- A page whose only frame holds markerLoginForm. -/
def markerLoginPage : QWebPage := ⟨.mk [.form markerLoginForm] []⟩

/-- A password-confirmation form: two password inputs pw1 and pw2, both holding
"x", and no other input. -/
def confirmForm : FormElement :=
  ⟨[⟨"password".toList, "pw1".toList, [], "x".toList⟩,
    ⟨"password".toList, "pw2".toList, [], "x".toList⟩]⟩

/-- A page whose only frame holds confirmForm. -/
def confirmPage : QWebPage := ⟨.mk [.form confirmForm] []⟩

/-- A form with two text inputs named like a user, user1 = "a" and user2 = "b",
and a password input pw = "s". -/
def twoUserForm : FormElement :=
  ⟨[⟨"text".toList, "user1".toList, [], "a".toList⟩,
    ⟨"text".toList, "user2".toList, [], "b".toList⟩,
    ⟨"password".toList, "pw".toList, [], "s".toList⟩]⟩

/-- A page whose only frame holds twoUserForm. -/
def twoUserPage : QWebPage := ⟨.mk [.form twoUserForm] []⟩

/- ## Breadth-first order of the frame tree -/

/-- The frames of a list of frame trees level by level: the listed frames in
order, then all their child frames in order, then the grandchildren, and so on. -/
def levelOrder (level : List QWebFrame) : List QWebFrame :=
  match level with
  | [] => []
  | f :: fs => (f :: fs) ++ levelOrder ((f :: fs).flatMap QWebFrame.childFrames)
termination_by frameCount level
decreasing_by
  have happ : ∀ a b : List QWebFrame, frameCount (a ++ b) = frameCount a + frameCount b := by
    intro a b
    induction a with
    | nil => simp [frameCount]
    | cons g rest ih =>
      cases g with
      | mk nodes cs => simp [frameCount, ih]; omega
  have hch : ∀ l : List QWebFrame,
      frameCount (l.flatMap QWebFrame.childFrames) + l.length = frameCount l := by
    intro l
    induction l with
    | nil => simp [frameCount]
    | cons g rest ih =>
      cases g with
      | mk nodes cs =>
        simp only [List.flatMap_cons, happ, QWebFrame.childFrames, frameCount, List.length_cons]
        omega
  have := hch (f :: fs)
  simp only [List.length_cons] at this
  omega

/-- Every frame of a list of frame trees, each tree in pre-order: a frame, then
the frames below it, then the trees that follow. Each frame is listed once. -/
def allFrames : List QWebFrame → List QWebFrame
  | [] => []
  | .mk nodes childFrames :: rest =>
    .mk nodes childFrames :: (allFrames childFrames ++ allFrames rest)

/-- A form holding one text input with the given name. -/
def namedForm (n : String) : FormElement := ⟨[⟨"text".toList, n.toList, [], []⟩]⟩

/-- A page with nested frames: the main frame (form "root") has the child frames
A (form "a", with its own child frame C holding form "c") and B (form "b"). -/
def nestedFramePage : QWebPage :=
  ⟨.mk [.form (namedForm "root")]
    [.mk [.form (namedForm "a")] [.mk [.form (namedForm "c")] []],
     .mk [.form (namedForm "b")] []]⟩

/- ## Form filling -/

/-- The list inputTypes of completePage: the input types that are completed. -/
def inputTypes : List QString := ["text".toList, "password".toList, "email".toList]

/-- The body of the inner for loop of completePage on one element: an element
whose type attribute is neither in inputTypes nor empty is skipped; otherwise,
when key equals its name attribute, setAttribute("value", value) is applied. -/
def completeElement (key value : QString) (element : InputElement) : InputElement :=
  if !inputTypes.contains element.typeAttr && !element.typeAttr.isEmpty then element
  else if key == element.name then { element with value := value }
  else element

/-- A node of a frame's document with its input elements rewritten by g. -/
def mapInputsNode (g : InputElement → InputElement) : Node → Node
  | .input e => .input (g e)
  | .form f => .form ⟨f.inputs.map g⟩

/-- A list of frame trees with every input element rewritten by g, nothing else
changed. -/
def mapInputsFrames (g : InputElement → InputElement) : List QWebFrame → List QWebFrame
  | [] => []
  | .mk nodes childFrames :: rest =>
    .mk (nodes.map (mapInputsNode g)) (mapInputsFrames g childFrames) ::
      mapInputsFrames g rest

/-- A frame tree with every input element rewritten by g. -/
def mapInputsFrame (g : InputElement → InputElement) : QWebFrame → QWebFrame
  | .mk nodes childFrames =>
    .mk (nodes.map (mapInputsNode g)) (mapInputsFrames g childFrames)

/-- The inner for loop of completePage for one query item: each element of
inputs, the collection of all input elements of the page, is visited once and
rewritten in the document by completeElement. -/
def completeInputs (key value : QString) (page : QWebPage) : QWebPage :=
  ⟨mapInputsFrame (completeElement key value) page.mainFrame⟩

/-- The outer for loop of completePage over the query items, in their order. -/
def completeItems : QueryItems → QWebPage → QWebPage
  | [], page => page
  | item :: rest, page => completeItems rest (completeInputs item.1 item.2 page)

/-- PageFormCompleter::completePage on the page m_page; the result is the
document after the call. -/
def completePage (qt5 : Bool) (page : QWebPage) (data : QByteArray) : QWebPage :=
  completeItems (createQueryItems qt5 data) page

/-- What the loops of completePage do to one input element: the query items are
applied to it one after the other, in their order. -/
def fillElement (queryItems : QueryItems) (element : InputElement) : InputElement :=
  queryItems.foldl (fun e item => completeElement item.1 item.2 e) element

/-- An input that completePage may fill: its type attribute is absent (empty)
or one of text, password, email. -/
def fillable (element : InputElement) : Bool :=
  element.typeAttr.isEmpty || inputTypes.contains element.typeAttr

/-- The value of the last item of queryItems whose key is key, and d when no
item has that key. -/
def lastValue (key : QString) : QueryItems → QString → QString
  | [], d => d
  | item :: rest, d => lastValue key rest (if item.1 = key then item.2 else d)

/-- A page with two inputs named q outside any form: one of type text, one of
type hidden. -/
def searchPage : QWebPage :=
  ⟨.mk [.input ⟨"text".toList, "q".toList, [], []⟩,
        .input ⟨"hidden".toList, "q".toList, [], []⟩] []⟩

/-- A page with two inputs named q outside any form: one of type text, one
without a type attribute. -/
def twoSearchPage : QWebPage :=
  ⟨.mk [.input ⟨"text".toList, "q".toList, [], []⟩,
        .input ⟨[], "q".toList, "old".toList, []⟩] []⟩

/- ## Multipart payloads written from parts -/

/-- The text of QString string from which the loop of
convertWebKitFormBoundaryIfNecessary builds its output for one match: nothing
when the closing quote is missing or the name or value is empty, name=value&
otherwise. -/
def captureOutput (string : List Char) : List Char :=
  match indexOf string ['"'] with
  | none => []
  | some endOfAttributeName =>
    if (string.take endOfAttributeName).isEmpty ||
        ((trimmed (string.drop (endOfAttributeName + 1))).filter (· != '\n')).isEmpty then []
    else string.take endOfAttributeName ++ ['='] ++
      (trimmed (string.drop (endOfAttributeName + 1))).filter (· != '\n') ++ ['&']

/-- One part of a multipart payload: the text that follows the marker on its
boundary line, the name, whether the closing quote of the name is there, and
the value. -/
structure Part where
  suffix : List Char
  name : List Char
  closed : Bool
  value : List Char
deriving DecidableEq, Repr

/-- The header text in front of the name, as in the comment of
convertWebKitFormBoundaryIfNecessary. -/
def dispositionPrefix : List Char := "Content-Disposition: form-data; ".toList

/-- A part from behind name=" up to the next boundary marker: the name, its
closing quote, the line break that ends the header, a blank line, the value and
a line break. -/
def Part.capture (lb : List Char) (p : Part) : List Char :=
  p.name ++ (if p.closed then ['"'] else []) ++ lb ++ lb ++ p.value ++ lb

/-- What follows the first boundary marker of a payload: for each part the rest
of its boundary line, the header up to name=", the capture and the marker of
the next boundary line; closing is what follows the marker of the closing
boundary. -/
def partsTail (lb closing : List Char) : List Part → List Char
  | [] => closing
  | p :: rest =>
    p.suffix ++ lb ++ dispositionPrefix ++ namePattern ++ p.capture lb ++ boundaryMarker ++
      partsTail lb closing rest

/-- A multipart payload written from its parts, with the line break lb. -/
def multipartPayload (lb closing : List Char) (parts : List Part) : List Char :=
  boundaryMarker ++ partsTail lb closing parts

/-- The conditions on a part under which its capture is read back: the suffix
of the boundary line does not hold name=", the name holds no '"' and no
boundary marker, the value holds no boundary marker and no newline and neither
starts nor ends with white space; a part without closing quote holds no '"' in
its value either. -/
def Part.admissible (p : Part) : Bool :=
  !containsSeq p.suffix namePattern &&
  !p.name.contains '"' && !containsSeq p.name boundaryMarker &&
  !containsSeq p.value boundaryMarker && !p.value.contains '\n' &&
  p.value.head?.all (fun c => !isSpace c) && p.value.getLast?.all (fun c => !isSpace c) &&
  (p.closed || !p.value.contains '"')

/-- A well-formed part: the name is closed by its quote, name and value are
non-empty. -/
def Part.wellFormed (p : Part) : Bool :=
  p.closed && !p.name.isEmpty && !p.value.isEmpty

/-- The output for one part: name=value& for a well-formed part, nothing
otherwise. -/
def Part.output (p : Part) : List Char :=
  if p.wellFormed then p.name ++ '=' :: p.value ++ ['&'] else []

/-- Two well-formed parts, user = "al=i&ce" and pw = "s "q" t", on boundary lines
with the suffix 0bBp. -/
def goodParts : List Part :=
  [⟨"0bBp".toList, "user".toList, true, "al=i&ce".toList⟩,
   ⟨"0bBp".toList, "pw".toList, true, "s \"q\" t".toList⟩]

/-- Every byte of s is an ASCII byte other than 0; toQString and toByteArray
keep such a text as it is in both Qt versions. -/
def asciiText (s : List Char) : Bool := s.all fun c => 0 < c.toNat && c.toNat < 128

/-- Two parts that meet every condition of a well-formed part, a = "b", a 0 byte,
"c" and d = "e": the value of the first holds a 0 byte. -/
def nulParts : List Part :=
  [⟨"0bBp".toList, "a".toList, true, ['b', '\x00', 'c']⟩,
   ⟨"0bBp".toList, "d".toList, true, "e".toList⟩]

/-- A payload of one part whose header goes on behind the closing quote of the
name: name="f"; size=2, with the value "hi". -/
def longHeaderPayload : QByteArray :=
  ("------WebKitFormBoundary0bBp\r\n" ++
   "Content-Disposition: form-data; name=\"f\"; size=2\r\n\r\nhi\r\n" ++
   "------WebKitFormBoundary0bBp--\r\n").toList

/- ## String search -/

theorem startsWith_iff (s pat : List Char) :
    startsWith s pat = true ↔ ∃ t, s = pat ++ t := by
  induction pat generalizing s with
  | nil => simp [startsWith]
  | cons p ps ih =>
    cases s with
    | nil => simp [startsWith]
    | cons c cs =>
      simp only [startsWith, Bool.and_eq_true, beq_iff_eq, ih, List.cons_append,
        List.cons.injEq]
      constructor
      · rintro ⟨h1, t, h2⟩
        exact ⟨t, h1, h2⟩
      · rintro ⟨t, h1, h2⟩
        exact ⟨h1, t, h2⟩

/-- The search containsSeq finds exactly the contiguous occurrences of pat in s. -/
theorem containsSeq_iff (s pat : List Char) :
    containsSeq s pat = true ↔ ∃ a b, s = a ++ pat ++ b := by
  unfold containsSeq
  induction s with
  | nil =>
    cases pat with
    | nil => simp [indexOf]
    | cons p ps => simp [indexOf]
  | cons c cs ih =>
    rw [indexOf]
    by_cases hsw : startsWith (c :: cs) pat = true
    · simp only [hsw, if_true, Option.isSome_some, true_iff]
      obtain ⟨t, ht⟩ := (startsWith_iff _ _).1 hsw
      exact ⟨[], t, by simpa using ht⟩
    · have hmap : (Option.map (fun x => x + 1) (indexOf cs pat)).isSome =
          (indexOf cs pat).isSome := by
        cases indexOf cs pat <;> rfl
      simp only [hsw, Bool.false_eq_true, if_false]
      rw [hmap, ih]
      constructor
      · rintro ⟨a, b, h⟩
        exact ⟨c :: a, b, by simp [h]⟩
      · rintro ⟨a, b, h⟩
        cases a with
        | nil =>
          exact absurd ((startsWith_iff _ _).2 ⟨b, by simpa using h⟩) hsw
        | cons x xs =>
          simp only [List.cons_append, List.cons.injEq] at h
          exact ⟨xs, b, h.2⟩

/- ## Unfolding lemmas -/

theorem getAllElementsLoop_nil {α : Type} (sel : QWebFrame → List α) (list : List α) :
    getAllElementsLoop sel [] list = list := by
  rw [getAllElementsLoop]

theorem getAllElementsLoop_cons {α : Type} (sel : QWebFrame → List α) (frame : QWebFrame)
    (frames : List QWebFrame) (list : List α) :
    getAllElementsLoop sel (frame :: frames) list =
      getAllElementsLoop sel (frames ++ frame.childFrames) (list ++ sel frame) := by
  rw [getAllElementsLoop]

theorem getAllElementsFromPage_leaf {α : Type} (sel : QWebFrame → List α) (nodes : List Node) :
    getAllElementsFromPage ⟨.mk nodes []⟩ sel = sel (.mk nodes []) := by
  simp [getAllElementsFromPage, getAllElementsLoop_cons, getAllElementsLoop_nil,
    QWebFrame.childFrames]

theorem loginPage_forms :
    getAllElementsFromPage loginPage QWebFrame.findAllForms = [loginForm] := by
  rw [loginPage, getAllElementsFromPage_leaf]; rfl

theorem convertLoop_of_no_match (s : List Char) (h : rxIndexIn s = none) :
    convertLoop s = [] := by
  rw [convertLoop]
  split
  · rfl
  · rename_i hs; rw [h] at hs; cases hs

theorem convert_of_no_marker (data : QByteArray) (h : containsSeq data boundaryMarker = false) :
    convertWebKitFormBoundaryIfNecessary data = data := by
  simp [convertWebKitFormBoundaryIfNecessary, h]

theorem extractFormData_invalid (qt5 : Bool) (page : QWebPage) (postData : QByteArray)
    (h : convertWebKitFormBoundaryIfNecessary postData = [] ∨
      '=' ∉ convertWebKitFormBoundaryIfNecessary postData) :
    extractFormData qt5 page postData =
      ⟨false, [], [], convertWebKitFormBoundaryIfNecessary postData⟩ := by
  unfold extractFormData
  rcases h with h | h
  · simp [h]
  · simp [h]

theorem extractFormData_scan (qt5 : Bool) (page : QWebPage) (postData : QByteArray)
    (h1 : convertWebKitFormBoundaryIfNecessary postData ≠ [])
    (h2 : '=' ∈ convertWebKitFormBoundaryIfNecessary postData) :
    extractFormData qt5 page postData =
      if (scanForms (createQueryItems qt5 (convertWebKitFormBoundaryIfNecessary postData))
          (getAllElementsFromPage page QWebFrame.findAllForms) ⟨[], []⟩).passwordValue = []
      then ⟨false, [], [], convertWebKitFormBoundaryIfNecessary postData⟩
      else ⟨true,
        (scanForms (createQueryItems qt5 (convertWebKitFormBoundaryIfNecessary postData))
          (getAllElementsFromPage page QWebFrame.findAllForms) ⟨[], []⟩).usernameValue,
        (scanForms (createQueryItems qt5 (convertWebKitFormBoundaryIfNecessary postData))
          (getAllElementsFromPage page QWebFrame.findAllForms) ⟨[], []⟩).passwordValue,
        convertWebKitFormBoundaryIfNecessary postData⟩ := by
  unfold extractFormData
  simp [h1, h2]

/- ## queryItemsContains -/

theorem queryItemsLookup_iff (n v : QString) (items : QueryItems) :
    queryItemsLookup n v items = true ↔
      ∃ pre post, items = pre ++ (n, v) :: post ∧ ∀ it ∈ pre, it.1 ≠ n := by
  induction items with
  | nil => simp [queryItemsLookup]
  | cons item rest ih =>
    unfold queryItemsLookup
    by_cases hk : item.1 = n
    · simp only [hk, if_true, beq_iff_eq]
      constructor
      · intro hv
        refine ⟨[], rest, ?_, by simp⟩
        rw [← hk, ← hv]; rfl
      · rintro ⟨pre, post, heq, hpre⟩
        cases pre with
        | nil =>
          simp only [List.nil_append, List.cons.injEq] at heq
          rw [heq.1]
        | cons a pre2 =>
          simp only [List.cons_append, List.cons.injEq] at heq
          exact absurd (heq.1 ▸ hk) (hpre a (by simp))
    · simp only [hk, if_false, ih]
      constructor
      · rintro ⟨pre, post, heq, hpre⟩
        refine ⟨item :: pre, post, by simp [heq], ?_⟩
        intro it hit
        rcases List.mem_cons.1 hit with h | h
        · rw [h]; exact hk
        · exact hpre it h
      · rintro ⟨pre, post, heq, hpre⟩
        cases pre with
        | nil =>
          simp only [List.nil_append, List.cons.injEq] at heq
          exact absurd (by rw [heq.1]) hk
        | cons a pre2 =>
          simp only [List.cons_append, List.cons.injEq] at heq
          exact ⟨pre2, post, heq.2, fun it hit => hpre it (by simp [hit])⟩

/-- The pair accepted by queryItemsContains: name and value are non-empty and the
first item whose key is the name carries the value. -/
theorem queryItemsContains_iff (items : QueryItems) (n v : QString) :
    queryItemsContains items n v = true ↔
      n ≠ [] ∧ v ≠ [] ∧ ∃ pre post, items = pre ++ (n, v) :: post ∧ ∀ it ∈ pre, it.1 ≠ n := by
  unfold queryItemsContains
  by_cases hn : n = []
  · simp [hn]
  · by_cases hv : v = []
    · simp [hv]
    · have he : (List.isEmpty n || List.isEmpty v) = false := by
        cases n with
        | nil => exact absurd rfl hn
        | cons a n2 =>
          cases v with
          | nil => exact absurd rfl hv
          | cons b v2 => rfl
      rw [he]
      simp only [Bool.false_eq_true, if_false, ne_eq, hn, hv, not_false_eq_true, true_and]
      exact queryItemsLookup_iff n v items

theorem queryItemsContains_mem (items : QueryItems) (n v : QString)
    (h : queryItemsContains items n v = true) : (n, v) ∈ items := by
  obtain ⟨_, _, pre, post, heq, _⟩ := (queryItemsContains_iff items n v).1 h
  rw [heq]; simp

theorem queryItemsContains_value_ne (items : QueryItems) (n v : QString)
    (h : queryItemsContains items n v = true) : v ≠ [] :=
  ((queryItemsContains_iff items n v).1 h).2.1

/- ## The scan of extractFormData -/

theorem scanInputs_no_match (items : QueryItems) (form : FormElement)
    (inputs : List InputElement) (st : Credentials)
    (h : ∀ e ∈ inputs, queryItemsContains items e.name e.liveValue = false) :
    scanInputs items form inputs st = (st, false) := by
  induction inputs with
  | nil => rfl
  | cons e rest ih =>
    unfold scanInputs
    rw [h e (by simp)]
    simpa using ih (fun x hx => h x (by simp [hx]))

theorem scanForms_no_match (items : QueryItems) (forms : List FormElement) (st : Credentials)
    (h : ∀ f ∈ forms, ∀ e ∈ f.findAll passwordSelector,
      queryItemsContains items e.name e.liveValue = false) :
    scanForms items forms st = st := by
  induction forms with
  | nil => rfl
  | cons f rest ih =>
    unfold scanForms
    rw [scanInputs_no_match items f _ st (h f (by simp))]
    simpa using ih (fun g hg => h g (by simp [hg]))

theorem scanInputs_password_ne (items : QueryItems) (form : FormElement)
    (inputs : List InputElement) (st : Credentials)
    (h : st.passwordValue ≠ [] ∨
      ∃ e ∈ inputs, queryItemsContains items e.name e.liveValue = true) :
    (scanInputs items form inputs st).1.passwordValue ≠ [] := by
  induction inputs generalizing st with
  | nil =>
    rcases h with h | ⟨e, he, _⟩
    · exact h
    · cases he
  | cons e rest ih =>
    unfold scanInputs
    by_cases hm : queryItemsContains items e.name e.liveValue = true
    · have hv := queryItemsContains_value_ne items _ _ hm
      simp only [hm, if_true]
      split
      · exact hv
      · exact ih _ (Or.inl hv)
    · simp only [hm]
      apply ih
      rcases h with h | ⟨x, hx, hxm⟩
      · exact Or.inl h
      · rcases List.mem_cons.1 hx with hx | hx
        · rw [hx] at hxm; exact absurd hxm hm
        · exact Or.inr ⟨x, hx, hxm⟩

theorem scanForms_password_ne (items : QueryItems) (forms : List FormElement)
    (st : Credentials)
    (h : st.passwordValue ≠ [] ∨ ∃ f ∈ forms, ∃ e ∈ f.findAll passwordSelector,
      queryItemsContains items e.name e.liveValue = true) :
    (scanForms items forms st).passwordValue ≠ [] := by
  induction forms generalizing st with
  | nil =>
    rcases h with h | ⟨f, hf, _⟩
    · exact h
    · cases hf
  | cons f rest ih =>
    unfold scanForms
    by_cases hin : ∃ e ∈ f.findAll passwordSelector,
        queryItemsContains items e.name e.liveValue = true
    · have hp := scanInputs_password_ne items f (f.findAll passwordSelector) st (Or.inr hin)
      split
      · exact hp
      · exact ih _ (Or.inl hp)
    · have hst : st.passwordValue ≠ [] ∨ ∃ g ∈ rest, ∃ e ∈ g.findAll passwordSelector,
          queryItemsContains items e.name e.liveValue = true := by
        rcases h with h | ⟨g, hg, hge⟩
        · exact Or.inl h
        · rcases List.mem_cons.1 hg with hg | hg
          · rw [hg] at hge; exact absurd hge hin
          · exact Or.inr ⟨g, hg, hge⟩
      split
      · rcases hst with hst | hst
        · exact scanInputs_password_ne items f _ st (Or.inl hst)
        · rename_i hbrk
          have hnm : ∀ e ∈ f.findAll passwordSelector,
              queryItemsContains items e.name e.liveValue = false := by
            intro e he
            by_contra hc
            exact hin ⟨e, he, by simpa using hc⟩
          rw [scanInputs_no_match items f _ st hnm] at hbrk
          cases hbrk
      · apply ih
        rcases hst with hst | hst
        · exact Or.inl (scanInputs_password_ne items f _ st (Or.inl hst))
        · exact Or.inr hst

theorem mem_findAll_password (form : FormElement) (e : InputElement) :
    e ∈ form.findAll passwordSelector ↔ e ∈ form.inputs ∧ e.typeAttr = "password".toList := by
  simp [FormElement.findAll, passwordSelector]

/- ## The nested loops as one scan -/

theorem scanInputs_eq_scanFlat (items : QueryItems) (f : FormElement)
    (inputs : List InputElement) (st : Credentials) :
    scanInputs items f inputs st = scanFlat items (inputs.map fun e => (f, e)) st := by
  induction inputs generalizing st with
  | nil => rfl
  | cons e rest ih =>
    simp only [scanInputs, List.map_cons, scanFlat, passwordMatches, usernameValidates, ih]

theorem scanFlat_append (items : QueryItems) (a b : List (FormElement × InputElement))
    (st : Credentials) :
    scanFlat items (a ++ b) st =
      if (scanFlat items a st).2 then scanFlat items a st
      else scanFlat items b (scanFlat items a st).1 := by
  induction a generalizing st with
  | nil => simp [scanFlat]
  | cons x rest ih =>
    simp only [List.cons_append, scanFlat]
    split
    · split
      · simp
      · exact ih _
    · exact ih _

theorem scanForms_eq_scanFlat (items : QueryItems) (forms : List FormElement)
    (st : Credentials) :
    scanForms items forms st = (scanFlat items (passwordScan forms) st).1 := by
  induction forms generalizing st with
  | nil => rfl
  | cons f rest ih =>
    have hps : passwordScan (f :: rest) =
        ((f.findAll passwordSelector).map fun e => (f, e)) ++ passwordScan rest := by
      simp [passwordScan]
    rw [hps, scanFlat_append, scanForms, scanInputs_eq_scanFlat]
    split
    · rfl
    · rw [ih]

theorem scanFlat_no_match (items : QueryItems) (l : List (FormElement × InputElement))
    (st : Credentials) (h : ∀ x ∈ l, passwordMatches items x.2 = false) :
    scanFlat items l st = (st, false) := by
  induction l with
  | nil => rfl
  | cons x rest ih =>
    rw [scanFlat, h x (by simp)]
    simpa using ih (fun y hy => h y (by simp [hy]))

theorem scanFlat_unvalidated (items : QueryItems) (l : List (FormElement × InputElement))
    (st : Credentials)
    (h : ∀ x ∈ l, ¬(passwordMatches items x.2 = true ∧ usernameValidates items x.1 = true)) :
    (scanFlat items l st).1.usernameValue = st.usernameValue ∧
      (scanFlat items l st).2 = false := by
  induction l generalizing st with
  | nil => exact ⟨rfl, rfl⟩
  | cons x rest ih =>
    have hx := h x (by simp)
    have hrest : ∀ y ∈ rest,
        ¬(passwordMatches items y.2 = true ∧ usernameValidates items y.1 = true) :=
      fun y hy => h y (by simp [hy])
    rw [scanFlat]
    by_cases hm : passwordMatches items x.2 = true
    · have hv : usernameValidates items x.1 = false := by
        by_contra hc
        exact hx ⟨hm, by simpa using hc⟩
      simp only [hm, hv, if_true, Bool.false_eq_true, if_false]
      exact ih _ hrest
    · simp only [hm, if_false]
      exact ih _ hrest

theorem scanFlat_first_validated (items : QueryItems)
    (pre post : List (FormElement × InputElement)) (f : FormElement) (e : InputElement)
    (st : Credentials)
    (hpre : ∀ x ∈ pre,
      ¬(passwordMatches items x.2 = true ∧ usernameValidates items x.1 = true))
    (hm : passwordMatches items e = true) (hv : usernameValidates items f = true) :
    scanFlat items (pre ++ (f, e) :: post) st = (⟨(findUsername f).2, e.liveValue⟩, true) := by
  rw [scanFlat_append, (scanFlat_unvalidated items pre st hpre).2]
  simp [scanFlat, hm, hv]

theorem scanFlat_last_matched (items : QueryItems)
    (pre post : List (FormElement × InputElement)) (f : FormElement) (e : InputElement)
    (st : Credentials)
    (hall : ∀ x ∈ pre ++ (f, e) :: post,
      ¬(passwordMatches items x.2 = true ∧ usernameValidates items x.1 = true))
    (hm : passwordMatches items e = true)
    (hpost : ∀ x ∈ post, passwordMatches items x.2 = false) :
    scanFlat items (pre ++ (f, e) :: post) st = (⟨st.usernameValue, e.liveValue⟩, false) := by
  have hpre := scanFlat_unvalidated items pre st (fun x hx => hall x (by simp [hx]))
  have hv : usernameValidates items f = false := by
    by_contra hc
    exact hall (f, e) (by simp) ⟨hm, by simpa using hc⟩
  rw [scanFlat_append, hpre.2]
  simp only [Bool.false_eq_true, if_false, scanFlat, hm, hv, if_true]
  rw [scanFlat_no_match items post _ hpost, hpre.1]

/- ## A matched pair needs a well-formed payload -/

theorem splitValue_some_mem (seg : List Char) (v : List Char)
    (h : (splitValue seg).2 = some v) : '=' ∈ seg := by
  induction seg with
  | nil => simp [splitValue] at h
  | cons c cs ih =>
    by_cases hc : c = '='
    · simp [hc]
    · simp only [splitValue, hc, if_false] at h
      exact List.mem_cons_of_mem _ (ih h)

theorem splitPairs_subset (q seg : List Char) (h : seg ∈ splitPairs q) :
    ∀ c ∈ seg, c ∈ q := by
  induction q generalizing seg with
  | nil => simp [splitPairs] at h
  | cons a q ih =>
    intro c hc
    unfold splitPairs at h
    by_cases ha : a = '&'
    · simp only [ha, if_true, List.mem_cons] at h
      rcases h with h | h
      · rw [h] at hc; cases hc
      · exact List.mem_cons_of_mem _ (ih seg h c hc)
    · simp only [ha, if_false] at h
      cases hsp : splitPairs q with
      | nil =>
        rw [hsp] at h
        simp only [List.mem_singleton] at h
        rw [h] at hc
        simp only [List.mem_singleton] at hc
        rw [hc]; simp
      | cons s0 segs =>
        rw [hsp] at h
        simp only [List.mem_cons] at h
        rcases h with h | h
        · rw [h] at hc
          rcases List.mem_cons.1 hc with hc | hc
          · rw [hc]; simp
          · exact List.mem_cons_of_mem _ (ih s0 (by rw [hsp]; simp) c hc)
        · exact List.mem_cons_of_mem _ (ih seg (by rw [hsp]; simp [h]) c hc)

theorem queryItems_value_ne (d : QByteArray) (item : QueryItem) (h : item ∈ queryItems d)
    (hv : item.2 ≠ []) : '=' ∈ d := by
  unfold queryItems at h
  obtain ⟨seg, hseg, rfl⟩ := List.mem_map.1 h
  cases hsv : (splitValue seg).2 with
  | none => simp [hsv, fromPercentEncoding] at hv
  | some v =>
    have h1 := splitValue_some_mem seg v hsv
    have h2 := splitPairs_subset _ seg hseg '=' h1
    exact (List.takeWhile_sublist _).subset h2

theorem replaceChar_eq_nil (a b : Char) (s : List Char) (h : replaceChar a b s ≠ []) :
    s ≠ [] := by
  intro hs; rw [hs] at h; exact h rfl

theorem createQueryItems_value_ne (qt5 : Bool) (d : QByteArray) (item : QueryItem)
    (h : item ∈ createQueryItems qt5 d) (hv : item.2 ≠ []) : '=' ∈ d := by
  unfold createQueryItems at h
  cases qt5 with
  | true =>
    simp only [if_true] at h
    obtain ⟨it, hit, rfl⟩ := List.mem_map.1 h
    exact queryItems_value_ne d it hit (replaceChar_eq_nil _ _ _ hv)
  | false =>
    simp only [Bool.false_eq_true, if_false] at h
    have h1 := queryItems_value_ne _ item h hv
    unfold replaceChar at h1
    obtain ⟨c, hc, hce⟩ := List.mem_map.1 h1
    by_cases hp : c = '+'
    · rw [hp] at hce; simp at hce
    · simp only [hp, if_false] at hce
      rw [← hce]; exact hc

theorem payload_valid_of_match (qt5 : Bool) (d : QByteArray) (n v : QString)
    (h : queryItemsContains (createQueryItems qt5 d) n v = true) : d ≠ [] ∧ '=' ∈ d := by
  have hm := createQueryItems_value_ne qt5 d (n, v) (queryItemsContains_mem _ _ _ h)
    (queryItemsContains_value_ne _ _ _ h)
  exact ⟨List.ne_nil_of_mem hm, hm⟩

/- ## findUsername -/

theorem findUsernameIn_first (pre post : List InputElement) (e : InputElement)
    (hpre : ∀ x ∈ pre, x.name = [] ∨ x.liveValue = [])
    (hn : e.name ≠ []) (hv : e.liveValue ≠ []) :
    findUsernameIn (pre ++ e :: post) = some (e.name, e.liveValue) := by
  induction pre with
  | nil =>
    simp [findUsernameIn, hn, hv]
  | cons x rest ih =>
    have hx := hpre x (by simp)
    have hc : (!x.name.isEmpty && !x.liveValue.isEmpty) = false := by
      rcases hx with hx | hx <;> simp [hx]
    rw [List.cons_append, findUsernameIn, hc]
    simpa using ih (fun y hy => hpre y (by simp [hy]))

theorem findUsernameIn_some (l : List InputElement)
    (h : ∃ x ∈ l, x.name ≠ [] ∧ x.liveValue ≠ []) :
    ∃ c ∈ l, findUsernameIn l = some (c.name, c.liveValue) := by
  induction l with
  | nil => obtain ⟨x, hx, _⟩ := h; cases hx
  | cons y rest ih =>
    by_cases hy : y.name ≠ [] ∧ y.liveValue ≠ []
    · exact ⟨y, by simp, by simp [findUsernameIn, hy.1, hy.2]⟩
    · have hc : (!y.name.isEmpty && !y.liveValue.isEmpty) = false := by
        by_cases hn : y.name = []
        · simp [hn]
        · have hv : y.liveValue = [] := by
            by_contra hv
            exact hy ⟨hn, hv⟩
          simp [hv]
      obtain ⟨x, hx, hxq⟩ := h
      have hrest : ∃ x ∈ rest, x.name ≠ [] ∧ x.liveValue ≠ [] := by
        rcases List.mem_cons.1 hx with hx | hx
        · rw [hx] at hxq; exact absurd hxq hy
        · exact ⟨x, hx, hxq⟩
      obtain ⟨c, hc1, hc2⟩ := ih hrest
      refine ⟨c, List.mem_cons_of_mem _ hc1, ?_⟩
      rw [findUsernameIn, hc]
      simpa using hc2

/- ## Decoding a payload written from pairs -/

theorem avoids_not_mem (chars s : List Char) (h : avoids chars s = true) (c : Char)
    (hc : c ∈ chars) : c ∉ s := by
  intro hs
  unfold avoids at h
  have := List.all_eq_true.1 h c hs
  simp [hc] at this

theorem splitValue_append (k v : List Char) (hk : '=' ∉ k) :
    splitValue (k ++ '=' :: v) = (k, some v) := by
  induction k with
  | nil => simp [splitValue]
  | cons c cs ih =>
    have hc : c ≠ '=' := fun h => hk (by simp [h])
    have hcs : '=' ∉ cs := fun h => hk (by simp [h])
    simp [splitValue, hc, ih hcs]

theorem splitPairs_append (seg rest : List Char) (hseg : '&' ∉ seg) :
    splitPairs (seg ++ '&' :: rest) = seg :: splitPairs rest := by
  induction seg with
  | nil => simp [splitPairs]
  | cons c cs ih =>
    have hc : c ≠ '&' := fun h => hseg (by simp [h])
    have hcs : '&' ∉ cs := fun h => hseg (by simp [h])
    simp [splitPairs, hc, ih hcs]

theorem splitPairs_single (seg : List Char) (hne : seg ≠ []) (hseg : '&' ∉ seg) :
    splitPairs seg = [seg] := by
  induction seg with
  | nil => exact absurd rfl hne
  | cons c cs ih =>
    have hc : c ≠ '&' := fun h => hseg (by simp [h])
    have hcs : '&' ∉ cs := fun h => hseg (by simp [h])
    cases cs with
    | nil => simp [splitPairs, hc]
    | cons d ds =>
      have := ih (by simp) hcs
      simp [splitPairs, hc] at this ⊢
      rw [this]

theorem fromPercentEncoding_cons (c : Char) (rest : List Char) (hc : c ≠ '%') :
    fromPercentEncoding (c :: rest) = c :: fromPercentEncoding rest := by
  cases rest with
  | nil => simp [fromPercentEncoding]
  | cons h r =>
    cases r with
    | nil => simp [fromPercentEncoding]
    | cons l r2 => simp [fromPercentEncoding, hc]

theorem fromPercentEncoding_plain (s : List Char) (hs : '%' ∉ s) :
    fromPercentEncoding s = s := by
  induction s with
  | nil => simp [fromPercentEncoding]
  | cons c cs ih =>
    have hc : c ≠ '%' := fun h => hs (by simp [h])
    have hcs : '%' ∉ cs := fun h => hs (by simp [h])
    rw [fromPercentEncoding_cons c cs hc, ih hcs]

theorem joinPairs_cons (kv : List Char × List Char) (rest : List (List Char × List Char))
    (hrest : rest ≠ []) :
    joinPairs (kv :: rest) = (kv.1 ++ '=' :: kv.2) ++ '&' :: joinPairs rest := by
  cases rest with
  | nil => exact absurd rfl hrest
  | cons a as => rfl

theorem joinPairs_not_mem (pairs : List (List Char × List Char)) (c : Char)
    (h1 : c ≠ '=') (h2 : c ≠ '&')
    (hp : ∀ kv ∈ pairs, c ∉ kv.1 ∧ c ∉ kv.2) : c ∉ joinPairs pairs := by
  induction pairs with
  | nil => simp [joinPairs]
  | cons kv rest ih =>
    have hkv := hp kv (by simp)
    have hrest := ih (fun x hx => hp x (by simp [hx]))
    cases rest with
    | nil => simp [joinPairs, hkv.1, hkv.2, h1]
    | cons a as =>
      rw [joinPairs_cons kv (a :: as) (by simp)]
      simp [hkv.1, hkv.2, h1, h2, hrest]

theorem splitPairs_joinPairs (pairs : List (List Char × List Char))
    (hp : ∀ kv ∈ pairs, '&' ∉ kv.1 ∧ '&' ∉ kv.2) :
    splitPairs (joinPairs pairs) = pairs.map fun kv => kv.1 ++ '=' :: kv.2 := by
  induction pairs with
  | nil => simp [joinPairs, splitPairs]
  | cons kv rest ih =>
    have hkv := hp kv (by simp)
    have hseg : '&' ∉ kv.1 ++ '=' :: kv.2 := by simp [hkv.1, hkv.2]
    cases rest with
    | nil =>
      simp only [joinPairs, List.map_cons, List.map_nil]
      exact splitPairs_single _ (by simp) hseg
    | cons a as =>
      rw [joinPairs_cons kv (a :: as) (by simp), splitPairs_append _ _ hseg,
        ih (fun x hx => hp x (by simp [hx]))]
      simp

/-- The decoder on a payload written from pairs whose keys and values hold none
of the characters '&', '=', '%', '#': the pairs come back in order. -/
theorem queryItems_joinPairs (pairs : List (List Char × List Char))
    (hp : ∀ kv ∈ pairs, avoids "&=%#".toList kv.1 = true ∧ avoids "&=%#".toList kv.2 = true) :
    queryItems (joinPairs pairs) = pairs := by
  have hfrag : '#' ∉ joinPairs pairs :=
    joinPairs_not_mem pairs '#' (by decide) (by decide) (fun kv hkv =>
      ⟨avoids_not_mem _ _ (hp kv hkv).1 _ (by decide),
       avoids_not_mem _ _ (hp kv hkv).2 _ (by decide)⟩)
  have htake : (joinPairs pairs).takeWhile (· != '#') = joinPairs pairs := by
    rw [List.takeWhile_eq_self_iff]
    intro c hc
    have : c ≠ '#' := fun h => hfrag (h ▸ hc)
    simpa using this
  unfold queryItems
  rw [htake, splitPairs_joinPairs pairs (fun kv hkv =>
      ⟨avoids_not_mem _ _ (hp kv hkv).1 _ (by decide),
       avoids_not_mem _ _ (hp kv hkv).2 _ (by decide)⟩), List.map_map]
  conv => rhs; rw [← List.map_id pairs]
  apply List.map_congr_left
  intro kv hkv
  have h1 := hp kv hkv
  simp only [Function.comp, id]
  rw [splitValue_append _ _ (avoids_not_mem _ _ h1.1 _ (by decide))]
  simp only [Option.getD_some]
  rw [fromPercentEncoding_plain _ (avoids_not_mem _ _ h1.1 _ (by decide)),
    fromPercentEncoding_plain _ (avoids_not_mem _ _ h1.2 _ (by decide))]

theorem replaceChar_plain (a b : Char) (s : List Char) (h : a ∉ s) : replaceChar a b s = s := by
  induction s with
  | nil => rfl
  | cons c cs ih =>
    have hc : c ≠ a := fun hh => h (by simp [hh])
    have hcs : a ∉ cs := fun hh => h (by simp [hh])
    simp only [replaceChar, List.map_cons, hc, if_false, List.cons.injEq, true_and]
    exact ih hcs

/-- Both variants of createQueryItems on a payload written from pairs whose keys
and values hold none of '&', '=', '%', '+', '#': the pairs come back unchanged. -/
theorem createQueryItems_joinPairs_plain (qt5 : Bool) (pairs : List (List Char × List Char))
    (hp : ∀ kv ∈ pairs,
      avoids "&=%+#".toList kv.1 = true ∧ avoids "&=%+#".toList kv.2 = true) :
    createQueryItems qt5 (joinPairs pairs) = pairs := by
  have hweak : ∀ s, avoids "&=%+#".toList s = true → avoids "&=%#".toList s = true := by
    intro s hs
    unfold avoids at hs ⊢
    rw [List.all_eq_true] at hs ⊢
    intro c hc
    have := hs c hc
    revert this
    simp only [Bool.not_eq_true', List.contains_eq_any_beq, List.any_eq_false, beq_iff_eq,
      String.toList]
    intro h x hx
    exact h x (by
      simp only [List.mem_cons, List.mem_singleton] at hx ⊢
      tauto)
  have hq := queryItems_joinPairs pairs (fun kv hkv =>
    ⟨hweak _ (hp kv hkv).1, hweak _ (hp kv hkv).2⟩)
  unfold createQueryItems
  cases qt5 with
  | true =>
    simp only [if_true, hq]
    conv => rhs; rw [← List.map_id pairs]
    apply List.map_congr_left
    intro kv hkv
    rw [replaceChar_plain _ _ _ (avoids_not_mem _ _ (hp kv hkv).1 _ (by decide)),
      replaceChar_plain _ _ _ (avoids_not_mem _ _ (hp kv hkv).2 _ (by decide))]
    rfl
  | false =>
    simp only [Bool.false_eq_true, if_false]
    rw [replaceChar_plain _ _ _ (joinPairs_not_mem pairs '+' (by decide) (by decide)
      (fun kv hkv => ⟨avoids_not_mem _ _ (hp kv hkv).1 _ (by decide),
        avoids_not_mem _ _ (hp kv hkv).2 _ (by decide)⟩)), hq]

/- ## Pages with one form -/

theorem scanForms_single (items : QueryItems) (form : FormElement) (st : Credentials) :
    scanForms items [form] st =
      (scanInputs items form (form.findAll passwordSelector) st).1 := by
  simp [scanForms]

theorem findUsername_single_text (form : FormElement) (txt : InputElement)
    (htxt : form.findAll textSelector = [txt])
    (hU : txt.name ≠ []) (hu : txt.liveValue ≠ []) :
    findUsername form = (txt.name, txt.liveValue) := by
  have hsome : findUsernameIn [txt] = some (txt.name, txt.liveValue) :=
    findUsernameIn_first [] [] txt (by simp) hU hu
  have h1 : form.findAll textUserSelector =
      [txt].filter fun e => containsSeq e.name "user".toList := by
    rw [← htxt]
    simp only [FormElement.findAll, List.filter_filter]
    apply List.filter_congr
    intro x _
    simp only [textUserSelector, textSelector, Bool.and_comm]
  have h2 : form.findAll textNameSelector =
      [txt].filter fun e => containsSeq e.name "name".toList := by
    rw [← htxt]
    simp only [FormElement.findAll, List.filter_filter]
    apply List.filter_congr
    intro x _
    simp only [textNameSelector, textSelector, Bool.and_comm]
  unfold findUsername usernameSelectors
  rw [findUsernameLoop, h1]
  by_cases hc1 : containsSeq txt.name "user".toList = true
  · simp only [List.filter_cons, hc1, if_true, List.filter_nil, hsome]
  · simp only [List.filter_cons, hc1, if_false, List.filter_nil, findUsernameIn]
    rw [findUsernameLoop, h2]
    by_cases hc2 : containsSeq txt.name "name".toList = true
    · simp only [List.filter_cons, hc2, if_true, List.filter_nil, hsome]
    · simp only [List.filter_cons, hc2, if_false, List.filter_nil, findUsernameIn]
      rw [findUsernameLoop, htxt, hsome]

theorem queryItemsContains_not_mem (items : QueryItems) (n v : QString)
    (h : (n, v) ∉ items) : queryItemsContains items n v = false := by
  by_contra hc
  exact h (queryItemsContains_mem items n v (by simpa using hc))

theorem markerLoginPage_forms :
    getAllElementsFromPage markerLoginPage QWebFrame.findAllForms = [markerLoginForm] := by
  rw [markerLoginPage, getAllElementsFromPage_leaf]; rfl

theorem confirmPage_forms :
    getAllElementsFromPage confirmPage QWebFrame.findAllForms = [confirmForm] := by
  rw [confirmPage, getAllElementsFromPage_leaf]; rfl

theorem twoUserPage_forms :
    getAllElementsFromPage twoUserPage QWebFrame.findAllForms = [twoUserForm] := by
  rw [twoUserPage, getAllElementsFromPage_leaf]; rfl

theorem convert_of_marker_no_match (data : QByteArray)
    (h1 : containsSeq data boundaryMarker = true) (h2 : rxIndexIn (toQString data) = none) :
    convertWebKitFormBoundaryIfNecessary data = [] := by
  simp [convertWebKitFormBoundaryIfNecessary, h1, convertLoop_of_no_match _ h2]

/- ## C1 -/

/-- C1: for every raw POST payload and every document, the record returned by
extractFormData has found = true exactly when its password is non-empty. -/
theorem extractFormData_found_iff_password (qt5 : Bool) (page : QWebPage)
    (postData : QByteArray) :
    (extractFormData qt5 page postData).found = true ↔
      (extractFormData qt5 page postData).password ≠ [] := by
  by_cases h1 : convertWebKitFormBoundaryIfNecessary postData = []
  · rw [extractFormData_invalid qt5 page postData (Or.inl h1)]; simp
  · by_cases h2 : '=' ∈ convertWebKitFormBoundaryIfNecessary postData
    · rw [extractFormData_scan qt5 page postData h1 h2]
      split
      · simp
      · rename_i h; simp [h]
    · rw [extractFormData_invalid qt5 page postData (Or.inr h2)]; simp

/- ## C2, C3, C4 -/

/-- C2 fails as stated: with the live password "------WebKitFormBoundary" the names
and values are non-empty, differ and hold none of '&', '=', '%', '+', '#', yet the
payload "user_login=alice&pw=------WebKitFormBoundary" holds the boundary marker,
is taken for a multipart payload and converted to the empty payload, and
extractFormData returns found = false. -/
theorem extractFormData_login_marker_counterexample :
    getAllElementsFromPage markerLoginPage QWebFrame.findAllForms = [markerLoginForm] ∧
    markerLoginForm.findAll passwordSelector =
      [⟨"password".toList, "pw".toList, [], "------WebKitFormBoundary".toList⟩] ∧
    markerLoginForm.findAll textSelector =
      [⟨"text".toList, "user_login".toList, [], "alice".toList⟩] ∧
    avoids "&=%+#".toList "pw".toList = true ∧
    avoids "&=%+#".toList "------WebKitFormBoundary".toList = true ∧
    avoids "&=%+#".toList "user_login".toList = true ∧
    avoids "&=%+#".toList "alice".toList = true ∧
    extractFormData true markerLoginPage
        "user_login=alice&pw=------WebKitFormBoundary".toList = ⟨false, [], [], []⟩ := by
  refine ⟨markerLoginPage_forms, by decide, by decide, by decide, by decide, by decide,
    by decide, ?_⟩
  have hc := convert_of_marker_no_match
    "user_login=alice&pw=------WebKitFormBoundary".toList (by decide) (by decide)
  rw [extractFormData_invalid true markerLoginPage _ (Or.inl hc), hc]

/-- C2 as amended: for a document whose only form has exactly one password input
(name P, live value p) and exactly one text input (name U, live value u), with
P, U, p, u non-empty, P different from U, none of them holding '&', '=', '%', '+'
or '#', and the payload "U=u&P=p" not holding the boundary marker,
extractFormData on that payload returns found = true, username u, password p. -/
theorem extractFormData_login (qt5 : Bool) (page : QWebPage) (form : FormElement)
    (pw txt : InputElement)
    (hforms : getAllElementsFromPage page QWebFrame.findAllForms = [form])
    (hpw : form.findAll passwordSelector = [pw])
    (htxt : form.findAll textSelector = [txt])
    (hP : pw.name ≠ []) (hp : pw.liveValue ≠ [])
    (hU : txt.name ≠ []) (hu : txt.liveValue ≠ [])
    (hPU : pw.name ≠ txt.name)
    (hcP : avoids "&=%+#".toList pw.name = true)
    (hcp : avoids "&=%+#".toList pw.liveValue = true)
    (hcU : avoids "&=%+#".toList txt.name = true)
    (hcu : avoids "&=%+#".toList txt.liveValue = true)
    (hmarker : containsSeq
      (txt.name ++ '=' :: txt.liveValue ++ '&' :: (pw.name ++ '=' :: pw.liveValue))
      boundaryMarker = false) :
    extractFormData qt5 page
        (txt.name ++ '=' :: txt.liveValue ++ '&' :: (pw.name ++ '=' :: pw.liveValue)) =
      ⟨true, txt.liveValue, pw.liveValue,
        txt.name ++ '=' :: txt.liveValue ++ '&' :: (pw.name ++ '=' :: pw.liveValue)⟩ := by
  have hconv := convert_of_no_marker _ hmarker
  have hitems : createQueryItems qt5
      (txt.name ++ '=' :: txt.liveValue ++ '&' :: (pw.name ++ '=' :: pw.liveValue)) =
      [(txt.name, txt.liveValue), (pw.name, pw.liveValue)] := by
    have := createQueryItems_joinPairs_plain qt5
      [(txt.name, txt.liveValue), (pw.name, pw.liveValue)] (by
        intro kv hkv
        simp only [List.mem_cons, List.mem_singleton, List.not_mem_nil, or_false] at hkv
        rcases hkv with rfl | rfl
        · exact ⟨hcU, hcu⟩
        · exact ⟨hcP, hcp⟩)
    exact this
  have hmp : queryItemsContains [(txt.name, txt.liveValue), (pw.name, pw.liveValue)]
      pw.name pw.liveValue = true :=
    (queryItemsContains_iff _ _ _).2 ⟨hP, hp, [(txt.name, txt.liveValue)], [], rfl, by
      intro it hit
      rw [List.mem_singleton] at hit
      rw [hit]
      exact fun h => hPU h.symm⟩
  have hmu : queryItemsContains [(txt.name, txt.liveValue), (pw.name, pw.liveValue)]
      txt.name txt.liveValue = true :=
    (queryItemsContains_iff _ _ _).2 ⟨hU, hu, [], [(pw.name, pw.liveValue)], rfl, by simp⟩
  have hfu := findUsername_single_text form txt htxt hU hu
  have hvalid : (txt.name ++ '=' :: txt.liveValue ++ '&' :: (pw.name ++ '=' :: pw.liveValue))
      ≠ [] ∧ '=' ∈ (txt.name ++ '=' :: txt.liveValue ++ '&' ::
        (pw.name ++ '=' :: pw.liveValue)) := by
    constructor
    · simp
    · simp
  rw [extractFormData_scan qt5 page _ (by rw [hconv]; exact hvalid.1)
    (by rw [hconv]; exact hvalid.2), hconv, hitems, hforms, scanForms_single, hpw]
  simp [scanInputs, hmp, hfu, hmu, hp]

/-- C2 at its own example: the login page (user_login = "alice", pw = "secret")
with the payload "user_login=alice&pw=secret". -/
theorem extractFormData_login_witness :
    extractFormData true loginPage "user_login=alice&pw=secret".toList =
      ⟨true, "alice".toList, "secret".toList, "user_login=alice&pw=secret".toList⟩ :=
  extractFormData_login true loginPage loginForm
    ⟨"password".toList, "pw".toList, [], "secret".toList⟩
    ⟨"text".toList, "user_login".toList, [], "alice".toList⟩
    loginPage_forms (by decide) (by decide) (by decide) (by decide) (by decide) (by decide)
    (by decide) (by decide) (by decide) (by decide) (by decide) (by decide)

/-- C3 fails as stated: on the page whose password input pw holds
"------WebKitFormBoundary", the payload "pw=------WebKitFormBoundary" carries no
key for the text input, holds the boundary marker, is converted to the empty
payload, and extractFormData returns found = false. -/
theorem extractFormData_password_marker_counterexample :
    getAllElementsFromPage markerLoginPage QWebFrame.findAllForms = [markerLoginForm] ∧
    markerLoginForm.findAll passwordSelector =
      [⟨"password".toList, "pw".toList, [], "------WebKitFormBoundary".toList⟩] ∧
    markerLoginForm.findAll textSelector =
      [⟨"text".toList, "user_login".toList, [], "alice".toList⟩] ∧
    extractFormData true markerLoginPage "pw=------WebKitFormBoundary".toList =
      ⟨false, [], [], []⟩ := by
  refine ⟨markerLoginPage_forms, by decide, by decide, ?_⟩
  have hc := convert_of_marker_no_match "pw=------WebKitFormBoundary".toList
    (by decide) (by decide)
  rw [extractFormData_invalid true markerLoginPage _ (Or.inl hc), hc]

/-- C3 as amended: for a document whose only form has exactly one password input
(name P, live value p) and exactly one text input (name U, live value u), with
P, p, U, u non-empty, U different from P, P and p holding none of '&', '=', '%',
'+', '#', and the payload "P=p" not holding the boundary marker, extractFormData
on that payload returns found = true, the empty username and password p. -/
theorem extractFormData_password_only (qt5 : Bool) (page : QWebPage) (form : FormElement)
    (pw txt : InputElement)
    (hforms : getAllElementsFromPage page QWebFrame.findAllForms = [form])
    (hpw : form.findAll passwordSelector = [pw])
    (htxt : form.findAll textSelector = [txt])
    (hP : pw.name ≠ []) (hp : pw.liveValue ≠ [])
    (hU : txt.name ≠ []) (hu : txt.liveValue ≠ [])
    (hPU : txt.name ≠ pw.name)
    (hcP : avoids "&=%+#".toList pw.name = true)
    (hcp : avoids "&=%+#".toList pw.liveValue = true)
    (hmarker : containsSeq (pw.name ++ '=' :: pw.liveValue) boundaryMarker = false) :
    extractFormData qt5 page (pw.name ++ '=' :: pw.liveValue) =
      ⟨true, [], pw.liveValue, pw.name ++ '=' :: pw.liveValue⟩ := by
  have hconv := convert_of_no_marker _ hmarker
  have hitems : createQueryItems qt5 (pw.name ++ '=' :: pw.liveValue) =
      [(pw.name, pw.liveValue)] := by
    have := createQueryItems_joinPairs_plain qt5 [(pw.name, pw.liveValue)] (by
      intro kv hkv
      rw [List.mem_singleton] at hkv
      rw [hkv]
      exact ⟨hcP, hcp⟩)
    exact this
  have hmp : queryItemsContains [(pw.name, pw.liveValue)] pw.name pw.liveValue = true :=
    (queryItemsContains_iff _ _ _).2 ⟨hP, hp, [], [], rfl, by simp⟩
  have hmu : queryItemsContains [(pw.name, pw.liveValue)] txt.name txt.liveValue = false := by
    apply queryItemsContains_not_mem
    rw [List.mem_singleton]
    intro h
    exact hPU (Prod.mk.inj h).1
  have hfu := findUsername_single_text form txt htxt hU hu
  rw [extractFormData_scan qt5 page _ (by rw [hconv]; simp) (by rw [hconv]; simp), hconv,
    hitems, hforms, scanForms_single, hpw]
  simp [scanInputs, hmp, hfu, hmu, hp]

/-- C3 at its own example: the login page with the payload "pw=secret". -/
theorem extractFormData_password_only_witness :
    extractFormData true loginPage "pw=secret".toList =
      ⟨true, [], "secret".toList, "pw=secret".toList⟩ :=
  extractFormData_password_only true loginPage loginForm
    ⟨"password".toList, "pw".toList, [], "secret".toList⟩
    ⟨"text".toList, "user_login".toList, [], "alice".toList⟩
    loginPage_forms (by decide) (by decide) (by decide) (by decide) (by decide) (by decide)
    (by decide) (by decide) (by decide) (by decide)

theorem findUsername_two_passwords (form : FormElement) (a b : InputElement)
    (hinputs : form.inputs = [a, b])
    (ha : a.typeAttr = "password".toList) (hb : b.typeAttr = "password".toList) :
    findUsername form = ([], []) := by
  have hne1 : ("password".toList == "text".toList) = false := by decide
  have hne2 : ("password".toList == "email".toList) = false := by decide
  have h1 : form.findAll textUserSelector = [] := by
    simp only [FormElement.findAll, hinputs, List.filter_cons, List.filter_nil,
      textUserSelector, ha, hb, hne1, Bool.false_and, Bool.false_eq_true, if_false]
  have h2 : form.findAll textNameSelector = [] := by
    simp only [FormElement.findAll, hinputs, List.filter_cons, List.filter_nil,
      textNameSelector, ha, hb, hne1, Bool.false_and, Bool.false_eq_true, if_false]
  have h3 : form.findAll textSelector = [] := by
    simp only [FormElement.findAll, hinputs, List.filter_cons, List.filter_nil,
      textSelector, ha, hb, hne1, Bool.false_eq_true, if_false]
  have h4 : form.findAll emailSelector = [] := by
    simp only [FormElement.findAll, hinputs, List.filter_cons, List.filter_nil,
      emailSelector, ha, hb, hne2, Bool.false_eq_true, if_false]
  have h5 : form.findAll fallbackSelector = [] := by
    simp only [FormElement.findAll, hinputs, List.filter_cons, List.filter_nil,
      fallbackSelector, Bool.false_eq_true, if_false]
  simp only [findUsername, usernameSelectors, findUsernameLoop, h1, h2, h3, h4, h5,
    findUsernameIn]

/-- C4: for a document whose only form holds exactly two password inputs, named
pw1 and pw2 and both with the live value "x", and no other input,
extractFormData on the payload "pw1=x&pw2=x" returns found = true, the
non-empty password "x" and the empty username: findUsername finds no
candidate in the form and returns the empty pair, which queryItemsContains
rejects. -/
theorem extractFormData_confirmation_form (qt5 : Bool) (page : QWebPage)
    (form : FormElement) (v1 v2 : QString)
    (hforms : getAllElementsFromPage page QWebFrame.findAllForms = [form])
    (hinputs : form.inputs =
      [⟨"password".toList, "pw1".toList, v1, "x".toList⟩,
       ⟨"password".toList, "pw2".toList, v2, "x".toList⟩]) :
    extractFormData qt5 page "pw1=x&pw2=x".toList =
      ⟨true, [], "x".toList, "pw1=x&pw2=x".toList⟩ := by
  have hconv : convertWebKitFormBoundaryIfNecessary "pw1=x&pw2=x".toList =
      "pw1=x&pw2=x".toList := by decide
  have hitems : createQueryItems qt5 "pw1=x&pw2=x".toList =
      [("pw1".toList, "x".toList), ("pw2".toList, "x".toList)] := by
    cases qt5 <;> decide
  have hfu := findUsername_two_passwords form _ _ hinputs rfl rfl
  have hpw : form.findAll passwordSelector =
      [⟨"password".toList, "pw1".toList, v1, "x".toList⟩,
       ⟨"password".toList, "pw2".toList, v2, "x".toList⟩] := by
    have hp : ("password".toList == "password".toList) = true := by decide
    simp only [FormElement.findAll, hinputs, List.filter_cons, List.filter_nil,
      passwordSelector, hp, if_true]
  have hm1 : queryItemsContains [("pw1".toList, "x".toList), ("pw2".toList, "x".toList)]
      "pw1".toList "x".toList = true := by decide
  have hm2 : queryItemsContains [("pw1".toList, "x".toList), ("pw2".toList, "x".toList)]
      "pw2".toList "x".toList = true := by decide
  have hnv : queryItemsContains [("pw1".toList, "x".toList), ("pw2".toList, "x".toList)]
      ([] : QString) ([] : QString) = false := by decide
  rw [extractFormData_scan qt5 page _ (by rw [hconv]; decide) (by rw [hconv]; decide), hconv,
    hitems, hforms, scanForms_single, hpw]
  simp only [scanInputs, hm1, hm2, hfu, hnv, if_true, Bool.false_eq_true, if_false]
  decide

/-- C4 on the page whose only frame holds the password-confirmation form. -/
theorem extractFormData_confirmation_form_witness :
    extractFormData true confirmPage "pw1=x&pw2=x".toList =
      ⟨true, [], "x".toList, "pw1=x&pw2=x".toList⟩ :=
  extractFormData_confirmation_form true confirmPage confirmForm [] [] confirmPage_forms rfl

/- ## C5, C6 -/

/-- C6: for every document and raw payload, when no password-type input of any
collected form has its (name, live value) pair among the decoded query items,
extractFormData returns found = false with empty username and password. -/
theorem extractFormData_no_password_pair (qt5 : Bool) (page : QWebPage)
    (postData : QByteArray)
    (h : ∀ form ∈ getAllElementsFromPage page QWebFrame.findAllForms,
      ∀ e ∈ form.inputs, e.typeAttr = "password".toList →
        (e.name, e.liveValue) ∉
          createQueryItems qt5 (convertWebKitFormBoundaryIfNecessary postData)) :
    (extractFormData qt5 page postData).found = false ∧
    (extractFormData qt5 page postData).username = [] ∧
    (extractFormData qt5 page postData).password = [] := by
  by_cases h1 : convertWebKitFormBoundaryIfNecessary postData = []
  · rw [extractFormData_invalid qt5 page postData (Or.inl h1)]; exact ⟨rfl, rfl, rfl⟩
  · by_cases h2 : '=' ∈ convertWebKitFormBoundaryIfNecessary postData
    · rw [extractFormData_scan qt5 page postData h1 h2]
      have hs : scanForms (createQueryItems qt5 (convertWebKitFormBoundaryIfNecessary postData))
          (getAllElementsFromPage page QWebFrame.findAllForms) ⟨[], []⟩ = ⟨[], []⟩ := by
        apply scanForms_no_match
        intro f hf e he
        rw [mem_findAll_password] at he
        by_contra hc
        exact h f hf e he.1 he.2 (queryItemsContains_mem _ _ _ (by simpa using hc))
      rw [hs]
      exact ⟨rfl, rfl, rfl⟩
    · rw [extractFormData_invalid qt5 page postData (Or.inr h2)]; exact ⟨rfl, rfl, rfl⟩

/-- C6 on the login page with the payload "user_login=alice&pw=other": the pair
(pw, secret) of the only password input is not among the items, nothing is found. -/
theorem extractFormData_no_password_pair_witness :
    (extractFormData true loginPage "user_login=alice&pw=other".toList).found = false ∧
    (extractFormData true loginPage "user_login=alice&pw=other".toList).username = [] ∧
    (extractFormData true loginPage "user_login=alice&pw=other".toList).password = [] :=
  extractFormData_no_password_pair true loginPage "user_login=alice&pw=other".toList (by
    intro form hf e he ht
    rw [loginPage_forms, List.mem_singleton] at hf
    subst hf
    have he2 : e = ⟨"text".toList, "user_login".toList, [], "alice".toList⟩ ∨
        e = ⟨"password".toList, "pw".toList, [], "secret".toList⟩ := by
      simpa [loginForm] using he
    rcases he2 with he2 | he2
    · subst he2; exact absurd ht (by decide)
    · subst he2; decide)

/-- C5 fails as stated: on the payload "pw=a&pw=b" the pair (pw, b) of the password
input occurs among the decoded items, behind another item with the key pw, and
extractFormData returns found = false. -/
theorem extractFormData_duplicate_key_counterexample :
    convertWebKitFormBoundaryIfNecessary "pw=a&pw=b".toList ≠ [] ∧
    '=' ∈ convertWebKitFormBoundaryIfNecessary "pw=a&pw=b".toList ∧
    (∃ form ∈ getAllElementsFromPage singlePasswordPage QWebFrame.findAllForms,
      ∃ e ∈ form.inputs, e.typeAttr = "password".toList ∧ e.name ≠ [] ∧ e.liveValue ≠ [] ∧
        (e.name, e.liveValue) ∈
          createQueryItems true (convertWebKitFormBoundaryIfNecessary "pw=a&pw=b".toList)) ∧
    (extractFormData true singlePasswordPage "pw=a&pw=b".toList).found = false := by
  have hforms : getAllElementsFromPage singlePasswordPage QWebFrame.findAllForms =
      [⟨[⟨"password".toList, "pw".toList, [], "b".toList⟩]⟩] := by
    rw [singlePasswordPage, getAllElementsFromPage_leaf]; rfl
  refine ⟨by decide, by decide, ?_, ?_⟩
  · rw [hforms]
    exact ⟨_, List.mem_singleton.2 rfl, ⟨"password".toList, "pw".toList, [], "b".toList⟩,
      by decide, by decide, by decide, by decide, by decide⟩
  · simp only [extractFormData, hforms]
    decide

/-- C5 as amended: for every document and raw payload whose normalised form is
non-empty and holds '=', if some form has a password-type input with non-empty
name n and live value v such that the first decoded item with key n is (n, v),
then the password is bound and extractFormData returns found = true. -/
theorem extractFormData_found_of_first_key (qt5 : Bool) (page : QWebPage)
    (postData : QByteArray)
    (h1 : convertWebKitFormBoundaryIfNecessary postData ≠ [])
    (h2 : '=' ∈ convertWebKitFormBoundaryIfNecessary postData)
    (form : FormElement) (hform : form ∈ getAllElementsFromPage page QWebFrame.findAllForms)
    (e : InputElement) (he : e ∈ form.inputs) (ht : e.typeAttr = "password".toList)
    (hn : e.name ≠ []) (hv : e.liveValue ≠ [])
    (pre post : QueryItems)
    (hitems : createQueryItems qt5 (convertWebKitFormBoundaryIfNecessary postData) =
      pre ++ (e.name, e.liveValue) :: post)
    (hfirst : ∀ it ∈ pre, it.1 ≠ e.name) :
    (extractFormData qt5 page postData).found = true ∧
    (extractFormData qt5 page postData).password ≠ [] := by
  have hm : queryItemsContains
      (createQueryItems qt5 (convertWebKitFormBoundaryIfNecessary postData))
      e.name e.liveValue = true :=
    (queryItemsContains_iff _ _ _).2 ⟨hn, hv, pre, post, hitems, hfirst⟩
  have hp := scanForms_password_ne
    (createQueryItems qt5 (convertWebKitFormBoundaryIfNecessary postData))
    (getAllElementsFromPage page QWebFrame.findAllForms) ⟨[], []⟩
    (Or.inr ⟨form, hform, e, (mem_findAll_password form e).2 ⟨he, ht⟩, hm⟩)
  rw [extractFormData_scan qt5 page postData h1 h2]
  simp [hp]

/-- C5 as amended, on the login page with the payload "user_login=alice&pw=secret":
the first (and only) item with key pw is (pw, secret). -/
theorem extractFormData_found_of_first_key_witness :
    (extractFormData true loginPage "user_login=alice&pw=secret".toList).found = true ∧
    (extractFormData true loginPage "user_login=alice&pw=secret".toList).password ≠ [] :=
  extractFormData_found_of_first_key true loginPage "user_login=alice&pw=secret".toList
    (by decide) (by decide) loginForm (by rw [loginPage_forms]; exact List.mem_singleton.2 rfl)
    ⟨"password".toList, "pw".toList, [], "secret".toList⟩ (by decide) (by decide) (by decide)
    (by decide) [("user_login".toList, "alice".toList)] [] (by decide) (by decide)

/- ## C7 -/

/-- C7: whatever the document, when the normalised payload (the output of
convertWebKitFormBoundaryIfNecessary) is empty or holds no '=', extractFormData
returns found = false, empty username and password, and that normalised payload. -/
theorem extractFormData_invalid_payload (qt5 : Bool) (page : QWebPage) (postData : QByteArray)
    (h : convertWebKitFormBoundaryIfNecessary postData = [] ∨
      '=' ∉ convertWebKitFormBoundaryIfNecessary postData) :
    (extractFormData qt5 page postData).found = false ∧
    (extractFormData qt5 page postData).username = [] ∧
    (extractFormData qt5 page postData).password = [] ∧
    (extractFormData qt5 page postData).normalizedPayload =
      convertWebKitFormBoundaryIfNecessary postData := by
  rw [extractFormData_invalid qt5 page postData h]
  exact ⟨rfl, rfl, rfl, rfl⟩

/-- C7 at the payload "nokeyvalue" on the login page: the payload has no '=', the
result is not found and carries the payload unchanged. -/
theorem extractFormData_invalid_payload_witness :
    (extractFormData true loginPage "nokeyvalue".toList).found = false ∧
    (extractFormData true loginPage "nokeyvalue".toList).username = [] ∧
    (extractFormData true loginPage "nokeyvalue".toList).password = [] ∧
    (extractFormData true loginPage "nokeyvalue".toList).normalizedPayload =
      "nokeyvalue".toList := by
  have h := extractFormData_invalid_payload true loginPage "nokeyvalue".toList
    (Or.inr (by decide))
  have hc : convertWebKitFormBoundaryIfNecessary "nokeyvalue".toList = "nokeyvalue".toList := by
    decide
  rw [hc] at h
  exact h

/- ## C8 -/

theorem extractFormData_unvalidated (qt5 : Bool) (page : QWebPage) (postData : QByteArray)
    (hnv : ∀ f ∈ getAllElementsFromPage page QWebFrame.findAllForms,
      usernameValidates (createQueryItems qt5 (convertWebKitFormBoundaryIfNecessary postData))
        f = false)
    (hm : ∃ f ∈ getAllElementsFromPage page QWebFrame.findAllForms,
      ∃ e ∈ f.findAll passwordSelector,
        queryItemsContains (createQueryItems qt5 (convertWebKitFormBoundaryIfNecessary postData))
          e.name e.liveValue = true) :
    (extractFormData qt5 page postData).found = true ∧
    (extractFormData qt5 page postData).username = [] := by
  obtain ⟨f, hf, e, he, hme⟩ := hm
  have hvalid := payload_valid_of_match qt5 _ _ _ hme
  have hp := scanForms_password_ne
    (createQueryItems qt5 (convertWebKitFormBoundaryIfNecessary postData))
    (getAllElementsFromPage page QWebFrame.findAllForms) ⟨[], []⟩
    (Or.inr ⟨f, hf, e, he, hme⟩)
  have hu := (scanFlat_unvalidated
    (createQueryItems qt5 (convertWebKitFormBoundaryIfNecessary postData))
    (passwordScan (getAllElementsFromPage page QWebFrame.findAllForms)) ⟨[], []⟩ (by
      intro x hx hc
      have hx1 : x.1 ∈ getAllElementsFromPage page QWebFrame.findAllForms := by
        simp only [passwordScan, List.mem_flatMap, List.mem_map] at hx
        obtain ⟨g, hg, y, _, rfl⟩ := hx
        exact hg
      rw [hnv x.1 hx1] at hc
      exact absurd hc.2 (by simp))).1
  rw [← scanForms_eq_scanFlat] at hu
  rw [extractFormData_scan qt5 page postData hvalid.1 hvalid.2]
  rw [if_neg hp]
  exact ⟨rfl, hu⟩

/-- C8 fails as stated: in the form with the text inputs user1 = "a" and
user2 = "b" and the password input pw = "s", on the payload "user2=b&pw=s" the
password is bound, the pair of user1 is absent from the items and the pair of
user2 is present, and extractFormData returns the empty username, not "b". -/
theorem extractFormData_second_user_counterexample :
    getAllElementsFromPage twoUserPage QWebFrame.findAllForms = [twoUserForm] ∧
    queryItemsContains (createQueryItems true
      (convertWebKitFormBoundaryIfNecessary "user2=b&pw=s".toList))
      "pw".toList "s".toList = true ∧
    ("user1".toList, "a".toList) ∉ createQueryItems true
      (convertWebKitFormBoundaryIfNecessary "user2=b&pw=s".toList) ∧
    ("user2".toList, "b".toList) ∈ createQueryItems true
      (convertWebKitFormBoundaryIfNecessary "user2=b&pw=s".toList) ∧
    extractFormData true twoUserPage "user2=b&pw=s".toList =
      ⟨true, [], "s".toList, "user2=b&pw=s".toList⟩ ∧
    (extractFormData true twoUserPage "user2=b&pw=s".toList).username ≠ "b".toList := by
  have hres : extractFormData true twoUserPage "user2=b&pw=s".toList =
      ⟨true, [], "s".toList, "user2=b&pw=s".toList⟩ := by
    simp only [extractFormData, twoUserPage_forms]
    decide
  refine ⟨twoUserPage_forms, by decide, by decide, by decide, hres, ?_⟩
  rw [hres]
  decide

/-- C8 as amended: within a username tier findUsername accepts the first element
in document order whose name and live value are both non-empty, whether or not
its pair exists in the decoded items; the pair is checked against the items only
afterwards. For a document whose only form has a bound password and two text
inputs whose names contain "user", the first with non-empty name and live value
and its pair absent from the items, the second with its pair present,
findUsername returns the first input's pair and extractFormData returns
found = true with the empty username. -/
theorem extractFormData_first_user_only (qt5 : Bool) (page : QWebPage)
    (postData : QByteArray) (form : FormElement)
    (pre mid post : List InputElement) (e1 e2 p : InputElement)
    (hforms : getAllElementsFromPage page QWebFrame.findAllForms = [form])
    (hinputs : form.inputs = pre ++ e1 :: (mid ++ e2 :: post))
    (hpre : ∀ x ∈ pre, textUserSelector x = true → x.liveValue = [])
    (h1t : e1.typeAttr = "text".toList)
    (h1u : containsSeq e1.name "user".toList = true)
    (h1n : e1.name ≠ []) (h1v : e1.liveValue ≠ [])
    (h1abs : (e1.name, e1.liveValue) ∉
      createQueryItems qt5 (convertWebKitFormBoundaryIfNecessary postData))
    (h2t : e2.typeAttr = "text".toList)
    (h2u : containsSeq e2.name "user".toList = true)
    (h2n : e2.name ≠ []) (h2v : e2.liveValue ≠ [])
    (h2pres : (e2.name, e2.liveValue) ∈
      createQueryItems qt5 (convertWebKitFormBoundaryIfNecessary postData))
    (hp : p ∈ form.findAll passwordSelector)
    (hpm : queryItemsContains
      (createQueryItems qt5 (convertWebKitFormBoundaryIfNecessary postData))
      p.name p.liveValue = true) :
    findUsername form = (e1.name, e1.liveValue) ∧
    (extractFormData qt5 page postData).found = true ∧
    (extractFormData qt5 page postData).username = [] := by
  have h1sel : textUserSelector e1 = true := by
    simp only [textUserSelector, h1t, h1u, beq_self_eq_true, Bool.and_self]
  have hfilter : form.findAll textUserSelector =
      pre.filter textUserSelector ++ e1 :: (mid ++ e2 :: post).filter textUserSelector := by
    simp only [FormElement.findAll, hinputs, List.filter_append, List.filter_cons, h1sel,
      if_true]
  have hfound : findUsernameIn (form.findAll textUserSelector) =
      some (e1.name, e1.liveValue) := by
    rw [hfilter]
    apply findUsernameIn_first _ _ _ _ h1n h1v
    intro x hx
    rw [List.mem_filter] at hx
    exact Or.inr (hpre x hx.1 hx.2)
  have hfu : findUsername form = (e1.name, e1.liveValue) := by
    simp [findUsername, usernameSelectors, findUsernameLoop, hfound]
  refine ⟨hfu, ?_⟩
  apply extractFormData_unvalidated
  · intro f hf
    rw [hforms, List.mem_singleton] at hf
    rw [hf, usernameValidates, hfu]
    exact queryItemsContains_not_mem _ _ _ h1abs
  · exact ⟨form, by rw [hforms]; exact List.mem_singleton.2 rfl, p, hp, hpm⟩

/-- C8 as amended, on the form with user1 = "a", user2 = "b", pw = "s" and the
payload "user2=b&pw=s": findUsername returns (user1, a), the username is empty. -/
theorem extractFormData_first_user_only_witness :
    findUsername twoUserForm = ("user1".toList, "a".toList) ∧
    (extractFormData true twoUserPage "user2=b&pw=s".toList).found = true ∧
    (extractFormData true twoUserPage "user2=b&pw=s".toList).username = [] :=
  extractFormData_first_user_only true twoUserPage "user2=b&pw=s".toList twoUserForm
    [] [] [⟨"password".toList, "pw".toList, [], "s".toList⟩]
    ⟨"text".toList, "user1".toList, [], "a".toList⟩
    ⟨"text".toList, "user2".toList, [], "b".toList⟩
    ⟨"password".toList, "pw".toList, [], "s".toList⟩
    twoUserPage_forms rfl (by decide) (by decide) (by decide) (by decide) (by decide)
    (by decide) (by decide) (by decide) (by decide) (by decide) (by decide) (by decide)
    (by decide)

/- ## C9 -/

/-- C9: the tiers of findUsername are tried in their fixed order, not by document
position. In a form where a text input a whose name contains "name" but not
"user" stands in front of a text input b whose name contains "user", both with
non-empty name and live value, findUsername returns the pair of an input of the
tier "user"; it is the pair of b when b is the first input of that tier that
holds a live value. -/
theorem findUsername_user_tier_first (form : FormElement)
    (pre mid post : List InputElement) (a b : InputElement)
    (hinputs : form.inputs = pre ++ a :: (mid ++ b :: post))
    (ha_type : a.typeAttr = "text".toList)
    (ha_name : containsSeq a.name "name".toList = true)
    (ha_user : containsSeq a.name "user".toList = false)
    (ha_n : a.name ≠ []) (ha_v : a.liveValue ≠ [])
    (hb_type : b.typeAttr = "text".toList)
    (hb_user : containsSeq b.name "user".toList = true)
    (hb_n : b.name ≠ []) (hb_v : b.liveValue ≠ []) :
    (∃ c ∈ form.inputs, c.typeAttr = "text".toList ∧
      containsSeq c.name "user".toList = true ∧
      findUsername form = (c.name, c.liveValue)) ∧
    ((∀ x ∈ pre ++ mid, textUserSelector x = true → x.liveValue = []) →
      findUsername form = (b.name, b.liveValue)) := by
  have hbsel : textUserSelector b = true := by
    simp only [textUserSelector, hb_type, hb_user, beq_self_eq_true, Bool.and_self]
  have hasel : textUserSelector a = false := by
    simp only [textUserSelector, ha_user, Bool.and_false]
  constructor
  · have hex : ∃ x ∈ form.findAll textUserSelector, x.name ≠ [] ∧ x.liveValue ≠ [] := by
      refine ⟨b, ?_, hb_n, hb_v⟩
      simp [FormElement.findAll, hinputs, hbsel]
    obtain ⟨c, hc, hfc⟩ := findUsernameIn_some _ hex
    have hc2 : c ∈ form.inputs ∧ textUserSelector c = true := by
      simpa [FormElement.findAll] using hc
    have hc3 : c.typeAttr = "text".toList ∧ containsSeq c.name "user".toList = true := by
      have := hc2.2
      simp only [textUserSelector, Bool.and_eq_true, beq_iff_eq] at this
      exact this
    refine ⟨c, hc2.1, hc3.1, hc3.2, ?_⟩
    simp [findUsername, usernameSelectors, findUsernameLoop, hfc]
  · intro hfirst
    have hfilter : form.findAll textUserSelector =
        (pre.filter textUserSelector ++ mid.filter textUserSelector) ++
          b :: post.filter textUserSelector := by
      simp [FormElement.findAll, hinputs, List.filter_append, List.filter_cons, hasel, hbsel]
    have hfound : findUsernameIn (form.findAll textUserSelector) =
        some (b.name, b.liveValue) := by
      rw [hfilter]
      apply findUsernameIn_first _ _ _ _ hb_n hb_v
      intro x hx
      have hx2 : (x ∈ pre ∨ x ∈ mid) ∧ textUserSelector x = true := by
        simp only [List.mem_append, List.mem_filter] at hx
        tauto
      exact Or.inr (hfirst x (List.mem_append.2 hx2.1) hx2.2)
    simp [findUsername, usernameSelectors, findUsernameLoop, hfound]

/-- C9 on the form with fullname = "Al" in front of username = "alice":
findUsername returns (username, alice). -/
theorem findUsername_user_tier_first_witness :
    findUsername nameBeforeUserForm = ("username".toList, "alice".toList) :=
  (findUsername_user_tier_first nameBeforeUserForm [] [] []
    ⟨"text".toList, "fullname".toList, [], "Al".toList⟩
    ⟨"text".toList, "username".toList, [], "alice".toList⟩
    rfl (by decide) (by decide) (by decide) (by decide) (by decide) (by decide) (by decide)
    (by decide) (by decide)).2 (by decide)

/- ## C10 -/

theorem twoFormPage_forms :
    getAllElementsFromPage twoFormPage QWebFrame.findAllForms =
      [⟨[⟨"text".toList, "usr1".toList, [], "alice".toList⟩,
         ⟨"password".toList, "pw1".toList, [], "s1".toList⟩]⟩,
       ⟨[⟨"text".toList, "usr2".toList, [], "bob".toList⟩,
         ⟨"password".toList, "pw2".toList, [], "s2".toList⟩]⟩] := by
  rw [twoFormPage, getAllElementsFromPage_leaf]; rfl

theorem extractFormData_of_scanFlat (qt5 : Bool) (page : QWebPage) (postData : QByteArray)
    (u p : QString) (b : Bool) (e : InputElement)
    (hm : passwordMatches (createQueryItems qt5 (convertWebKitFormBoundaryIfNecessary postData))
      e = true)
    (hp : p = e.liveValue)
    (hs : scanFlat (createQueryItems qt5 (convertWebKitFormBoundaryIfNecessary postData))
      (passwordScan (getAllElementsFromPage page QWebFrame.findAllForms)) ⟨[], []⟩ =
        (⟨u, p⟩, b)) :
    extractFormData qt5 page postData =
      ⟨true, u, p, convertWebKitFormBoundaryIfNecessary postData⟩ := by
  have hvalid := payload_valid_of_match qt5 _ _ _ hm
  have hne : p ≠ [] := by
    rw [hp]; exact queryItemsContains_value_ne _ _ _ hm
  rw [extractFormData_scan qt5 page postData hvalid.1 hvalid.2, scanForms_eq_scanFlat, hs]
  simp [hne]

/-- C10: scanning the forms in collection order and each form's password inputs
in document order, extractFormData returns the live value of the first matched
password input whose form's username candidate validates against the items,
with that candidate's value as username; when no matched password input has a
validating username, it returns the live value of the last matched password
input in scan order, with the empty username. -/
theorem extractFormData_scan_order (qt5 : Bool) (page : QWebPage) (postData : QByteArray) :
    (∀ (pre post : List (FormElement × InputElement)) (f : FormElement) (e : InputElement),
      passwordScan (getAllElementsFromPage page QWebFrame.findAllForms) =
        pre ++ (f, e) :: post →
      passwordMatches (createQueryItems qt5 (convertWebKitFormBoundaryIfNecessary postData))
        e = true →
      usernameValidates (createQueryItems qt5 (convertWebKitFormBoundaryIfNecessary postData))
        f = true →
      (∀ x ∈ pre, ¬(passwordMatches
          (createQueryItems qt5 (convertWebKitFormBoundaryIfNecessary postData)) x.2 = true ∧
        usernameValidates
          (createQueryItems qt5 (convertWebKitFormBoundaryIfNecessary postData)) x.1 = true)) →
      (extractFormData qt5 page postData).found = true ∧
      (extractFormData qt5 page postData).password = e.liveValue ∧
      (extractFormData qt5 page postData).username = (findUsername f).2) ∧
    (∀ (pre post : List (FormElement × InputElement)) (f : FormElement) (e : InputElement),
      passwordScan (getAllElementsFromPage page QWebFrame.findAllForms) =
        pre ++ (f, e) :: post →
      passwordMatches (createQueryItems qt5 (convertWebKitFormBoundaryIfNecessary postData))
        e = true →
      (∀ x ∈ post, passwordMatches
        (createQueryItems qt5 (convertWebKitFormBoundaryIfNecessary postData)) x.2 = false) →
      (∀ x ∈ passwordScan (getAllElementsFromPage page QWebFrame.findAllForms),
        ¬(passwordMatches
          (createQueryItems qt5 (convertWebKitFormBoundaryIfNecessary postData)) x.2 = true ∧
        usernameValidates
          (createQueryItems qt5 (convertWebKitFormBoundaryIfNecessary postData)) x.1 = true)) →
      (extractFormData qt5 page postData).found = true ∧
      (extractFormData qt5 page postData).password = e.liveValue ∧
      (extractFormData qt5 page postData).username = []) := by
  constructor
  · intro pre post f e hscan hm hv hpre
    have hs := scanFlat_first_validated _ pre post f e ⟨[], []⟩ hpre hm hv
    rw [← hscan] at hs
    rw [extractFormData_of_scanFlat qt5 page postData _ _ _ e hm rfl hs]
    exact ⟨rfl, rfl, rfl⟩
  · intro pre post f e hscan hm hpost hall
    rw [hscan] at hall
    have hs := scanFlat_last_matched _ pre post f e ⟨[], []⟩ hall hm hpost
    rw [← hscan] at hs
    rw [extractFormData_of_scanFlat qt5 page postData _ _ _ e hm rfl hs]
    exact ⟨rfl, rfl, rfl⟩

/-- C10 on two concrete inputs. On the login page with "user_login=alice&pw=secret"
the only password input is matched and its form's username validates. On the
page with two forms and the payload "pw1=s1&pw2=s2" both password inputs are
matched, no username validates, and the last one, pw2, is returned. -/
theorem extractFormData_scan_order_witness :
    ((extractFormData true loginPage "user_login=alice&pw=secret".toList).found = true ∧
     (extractFormData true loginPage "user_login=alice&pw=secret".toList).password =
        "secret".toList ∧
     (extractFormData true loginPage "user_login=alice&pw=secret".toList).username =
        "alice".toList) ∧
    ((extractFormData true twoFormPage "pw1=s1&pw2=s2".toList).found = true ∧
     (extractFormData true twoFormPage "pw1=s1&pw2=s2".toList).password = "s2".toList ∧
     (extractFormData true twoFormPage "pw1=s1&pw2=s2".toList).username = []) := by
  constructor
  · have h := (extractFormData_scan_order true loginPage
      "user_login=alice&pw=secret".toList).1 [] [] loginForm
      ⟨"password".toList, "pw".toList, [], "secret".toList⟩
    rw [loginPage_forms] at h
    exact h (by decide) (by decide) (by decide) (by decide)
  · have h := (extractFormData_scan_order true twoFormPage "pw1=s1&pw2=s2".toList).2
      [(⟨[⟨"text".toList, "usr1".toList, [], "alice".toList⟩,
          ⟨"password".toList, "pw1".toList, [], "s1".toList⟩]⟩,
        ⟨"password".toList, "pw1".toList, [], "s1".toList⟩)] []
      ⟨[⟨"text".toList, "usr2".toList, [], "bob".toList⟩,
        ⟨"password".toList, "pw2".toList, [], "s2".toList⟩]⟩
      ⟨"password".toList, "pw2".toList, [], "s2".toList⟩
    rw [twoFormPage_forms] at h
    exact h (by decide) (by decide) (by decide) (by decide)

/- ## C11 -/

/-- C11: a payload that does not contain the byte sequence
"------WebKitFormBoundary" is returned by convertWebKitFormBoundaryIfNecessary
unchanged, byte for byte. -/
theorem convert_without_marker (p : QByteArray)
    (h : containsSeq p boundaryMarker = false) :
    convertWebKitFormBoundaryIfNecessary p = p := by
  unfold convertWebKitFormBoundaryIfNecessary
  rw [h]
  rfl

/-- C11 on the empty payload and on "user_login=alice&pw=secret". -/
theorem convert_without_marker_witness :
    convertWebKitFormBoundaryIfNecessary [] = [] ∧
    convertWebKitFormBoundaryIfNecessary "user_login=alice&pw=secret".toList =
      "user_login=alice&pw=secret".toList :=
  ⟨convert_without_marker [] (by decide),
   convert_without_marker "user_login=alice&pw=secret".toList (by decide)⟩

/- ## C14 -/

theorem replaceChar_append (a b : Char) (s t : List Char) :
    replaceChar a b (s ++ t) = replaceChar a b s ++ replaceChar a b t := by
  simp [replaceChar]

theorem replaceChar_joinPairs (pairs : List (List Char × List Char)) :
    replaceChar '+' ' ' (joinPairs pairs) =
      joinPairs (pairs.map fun kv => (replaceChar '+' ' ' kv.1, replaceChar '+' ' ' kv.2)) := by
  induction pairs with
  | nil => rfl
  | cons kv rest ih =>
    cases rest with
    | nil =>
      simp only [joinPairs, List.map_cons, List.map_nil, replaceChar_append]
      simp [replaceChar]
    | cons a as =>
      have h1 := joinPairs_cons kv (a :: as) (by simp)
      have h2 := joinPairs_cons (replaceChar '+' ' ' kv.1, replaceChar '+' ' ' kv.2)
        ((a :: as).map fun kv => (replaceChar '+' ' ' kv.1, replaceChar '+' ' ' kv.2))
        (by simp)
      rw [h1, List.map_cons, h2, ← ih, replaceChar_append, replaceChar_append]
      simp [replaceChar]

theorem avoids_replaceChar (s : List Char) (h : avoids "&=%#".toList s = true) :
    avoids "&=%#".toList (replaceChar '+' ' ' s) = true := by
  unfold avoids at h ⊢
  rw [List.all_eq_true] at h ⊢
  intro c hc
  unfold replaceChar at hc
  obtain ⟨d, hd, rfl⟩ := List.mem_map.1 hc
  by_cases hp : d = '+'
  · simp only [hp, if_true]; decide
  · simp only [hp, if_false]; exact h d hd

/-- C14: for a payload k1=v1&...&kn=vn whose keys are non-empty and whose keys
and values hold none of '&', '=', '%', '#', createQueryItems returns exactly the
n pairs, in the order of the payload and with duplicate keys kept, every '+' of
a key or value replaced by a space. -/
theorem createQueryItems_joinPairs (qt5 : Bool) (pairs : List (List Char × List Char))
    (hp : ∀ kv ∈ pairs, kv.1 ≠ [] ∧
      avoids "&=%#".toList kv.1 = true ∧ avoids "&=%#".toList kv.2 = true) :
    createQueryItems qt5 (joinPairs pairs) =
      pairs.map fun kv => (replaceChar '+' ' ' kv.1, replaceChar '+' ' ' kv.2) := by
  unfold createQueryItems
  cases qt5 with
  | true =>
    simp only [if_true]
    rw [queryItems_joinPairs pairs (fun kv hkv => (hp kv hkv).2)]
  | false =>
    simp only [Bool.false_eq_true, if_false]
    rw [replaceChar_joinPairs, queryItems_joinPairs]
    intro kv hkv
    obtain ⟨x, hx, rfl⟩ := List.mem_map.1 hkv
    exact ⟨avoids_replaceChar _ (hp x hx).2.1, avoids_replaceChar _ (hp x hx).2.2⟩

/-- C14 on the payloads "a=1&b=2", "a+b=c+d" and, with a repeated key,
"k=1&k=2", in both variants of createQueryItems. -/
theorem createQueryItems_joinPairs_witness :
    createQueryItems true "a=1&b=2".toList =
      [("a".toList, "1".toList), ("b".toList, "2".toList)] ∧
    createQueryItems false "a+b=c+d".toList = [("a b".toList, "c d".toList)] ∧
    createQueryItems true "a+b=c+d".toList = [("a b".toList, "c d".toList)] ∧
    createQueryItems false "k=1&k=2".toList =
      [("k".toList, "1".toList), ("k".toList, "2".toList)] :=
  ⟨createQueryItems_joinPairs true
      [("a".toList, "1".toList), ("b".toList, "2".toList)] (by decide),
   createQueryItems_joinPairs false [("a+b".toList, "c+d".toList)] (by decide),
   createQueryItems_joinPairs true [("a+b".toList, "c+d".toList)] (by decide),
   createQueryItems_joinPairs false
      [("k".toList, "1".toList), ("k".toList, "2".toList)] (by decide)⟩

/- ## First and last elements with a property -/

theorem exists_first_of_exists {α : Type} (p : α → Bool) (l : List α)
    (h : ∃ x ∈ l, p x = true) :
    ∃ a e b, l = a ++ e :: b ∧ p e = true ∧ ∀ y ∈ a, p y = false := by
  induction l with
  | nil => obtain ⟨x, hx, _⟩ := h; cases hx
  | cons z rest ih =>
    by_cases hz : p z = true
    · exact ⟨[], z, rest, rfl, hz, by simp⟩
    · have hrest : ∃ x ∈ rest, p x = true := by
        obtain ⟨x, hx, hpx⟩ := h
        rcases List.mem_cons.1 hx with hx | hx
        · rw [hx] at hpx; exact absurd hpx hz
        · exact ⟨x, hx, hpx⟩
      obtain ⟨a, e, b, hl, he, ha⟩ := ih hrest
      refine ⟨z :: a, e, b, by simp [hl], he, ?_⟩
      intro y hy
      rcases List.mem_cons.1 hy with hy | hy
      · rw [hy]; simpa using hz
      · exact ha y hy

theorem exists_last_of_exists {α : Type} (p : α → Bool) (l : List α)
    (h : ∃ x ∈ l, p x = true) :
    ∃ a e b, l = a ++ e :: b ∧ p e = true ∧ ∀ y ∈ b, p y = false := by
  induction l with
  | nil => obtain ⟨x, hx, _⟩ := h; cases hx
  | cons z rest ih =>
    by_cases hrest : ∃ x ∈ rest, p x = true
    · obtain ⟨a, e, b, hl, he, hb⟩ := ih hrest
      exact ⟨z :: a, e, b, by simp [hl], he, hb⟩
    · have hz : p z = true := by
        obtain ⟨x, hx, hpx⟩ := h
        rcases List.mem_cons.1 hx with hx | hx
        · rw [hx] at hpx; exact hpx
        · exact absurd ⟨x, hx, hpx⟩ hrest
      refine ⟨[], z, rest, rfl, hz, ?_⟩
      intro y hy
      by_contra hc
      exact hrest ⟨y, hy, by simpa using hc⟩

theorem mem_passwordScan (forms : List FormElement) (x : FormElement × InputElement) :
    x ∈ passwordScan forms ↔ x.1 ∈ forms ∧ x.2 ∈ x.1.findAll passwordSelector := by
  simp only [passwordScan, List.mem_flatMap, List.mem_map]
  constructor
  · rintro ⟨g, hg, y, hy, rfl⟩
    exact ⟨hg, hy⟩
  · rintro ⟨h1, h2⟩
    exact ⟨x.1, h1, x.2, h2, rfl⟩

theorem passwordScan_append (a b : List FormElement) :
    passwordScan (a ++ b) = passwordScan a ++ passwordScan b := by
  simp [passwordScan]

theorem passwordScan_cons (f : FormElement) (rest : List FormElement) :
    passwordScan (f :: rest) =
      ((f.findAll passwordSelector).map fun e => (f, e)) ++ passwordScan rest := by
  simp [passwordScan]

/- ## C19 -/

/-- C19 fails as stated: on the page with two forms and the payload
"pw1=s1&pw2=s2" each form has a matched password input and no validating
username, and extractFormData returns the password "s2" bound in the second
form, not "s1" bound in the first. -/
theorem extractFormData_first_form_counterexample :
    passwordScan (getAllElementsFromPage twoFormPage QWebFrame.findAllForms) =
      [(⟨[⟨"text".toList, "usr1".toList, [], "alice".toList⟩,
          ⟨"password".toList, "pw1".toList, [], "s1".toList⟩]⟩,
        ⟨"password".toList, "pw1".toList, [], "s1".toList⟩),
       (⟨[⟨"text".toList, "usr2".toList, [], "bob".toList⟩,
          ⟨"password".toList, "pw2".toList, [], "s2".toList⟩]⟩,
        ⟨"password".toList, "pw2".toList, [], "s2".toList⟩)] ∧
    queryItemsContains (createQueryItems true
      (convertWebKitFormBoundaryIfNecessary "pw1=s1&pw2=s2".toList))
      "pw1".toList "s1".toList = true ∧
    queryItemsContains (createQueryItems true
      (convertWebKitFormBoundaryIfNecessary "pw1=s1&pw2=s2".toList))
      "pw2".toList "s2".toList = true ∧
    extractFormData true twoFormPage "pw1=s1&pw2=s2".toList =
      ⟨true, [], "s2".toList, "pw1=s1&pw2=s2".toList⟩ ∧
    (extractFormData true twoFormPage "pw1=s1&pw2=s2".toList).password ≠ "s1".toList := by
  have hres : extractFormData true twoFormPage "pw1=s1&pw2=s2".toList =
      ⟨true, [], "s2".toList, "pw1=s1&pw2=s2".toList⟩ := by
    simp only [extractFormData, twoFormPage_forms]
    decide
  refine ⟨?_, by decide, by decide, hres, ?_⟩
  · rw [twoFormPage_forms]; decide
  · rw [hres]; decide

/-- C19 as amended: when no form's username candidate validates, the last form
in scan order that has a matched password input is authoritative:
extractFormData returns found = true, the empty username and the live value of
a matched password input of that form, whatever earlier forms have bound. -/
theorem extractFormData_last_form (qt5 : Bool) (page : QWebPage) (postData : QByteArray)
    (preForms postForms : List FormElement) (f : FormElement)
    (hforms : getAllElementsFromPage page QWebFrame.findAllForms =
      preForms ++ f :: postForms)
    (hnv : ∀ g ∈ getAllElementsFromPage page QWebFrame.findAllForms,
      usernameValidates (createQueryItems qt5 (convertWebKitFormBoundaryIfNecessary postData))
        g = false)
    (hf : ∃ e ∈ f.findAll passwordSelector,
      passwordMatches (createQueryItems qt5 (convertWebKitFormBoundaryIfNecessary postData))
        e = true)
    (hpost : ∀ g ∈ postForms, ∀ e ∈ g.findAll passwordSelector,
      passwordMatches (createQueryItems qt5 (convertWebKitFormBoundaryIfNecessary postData))
        e = false) :
    (extractFormData qt5 page postData).found = true ∧
    (extractFormData qt5 page postData).username = [] ∧
    ∃ e ∈ f.findAll passwordSelector,
      passwordMatches (createQueryItems qt5 (convertWebKitFormBoundaryIfNecessary postData))
        e = true ∧
      (extractFormData qt5 page postData).password = e.liveValue := by
  obtain ⟨a, e, b, hl, he, hb⟩ := exists_last_of_exists
    (passwordMatches (createQueryItems qt5 (convertWebKitFormBoundaryIfNecessary postData)))
    (f.findAll passwordSelector) hf
  have hscan : passwordScan (getAllElementsFromPage page QWebFrame.findAllForms) =
      (passwordScan preForms ++ a.map fun y => (f, y)) ++ (f, e) ::
        ((b.map fun y => (f, y)) ++ passwordScan postForms) := by
    rw [hforms, passwordScan_append, passwordScan_cons, hl]
    simp
  have hall : ∀ x ∈ (passwordScan preForms ++ a.map fun y => (f, y)) ++ (f, e) ::
        ((b.map fun y => (f, y)) ++ passwordScan postForms),
      ¬(passwordMatches (createQueryItems qt5
          (convertWebKitFormBoundaryIfNecessary postData)) x.2 = true ∧
        usernameValidates (createQueryItems qt5
          (convertWebKitFormBoundaryIfNecessary postData)) x.1 = true) := by
    intro x hx hc
    rw [← hscan, mem_passwordScan] at hx
    rw [hnv x.1 hx.1] at hc
    exact absurd hc.2 (by simp)
  have hpost2 : ∀ x ∈ (b.map fun y => (f, y)) ++ passwordScan postForms,
      passwordMatches (createQueryItems qt5
        (convertWebKitFormBoundaryIfNecessary postData)) x.2 = false := by
    intro x hx
    rcases List.mem_append.1 hx with hx | hx
    · obtain ⟨y, hy, rfl⟩ := List.mem_map.1 hx
      exact hb y hy
    · rw [mem_passwordScan] at hx
      exact hpost x.1 hx.1 x.2 hx.2
  have hs := scanFlat_last_matched _ _ _ f e ⟨[], []⟩ hall he hpost2
  rw [← hscan] at hs
  rw [extractFormData_of_scanFlat qt5 page postData _ _ _ e he rfl hs]
  refine ⟨rfl, rfl, e, ?_, he, rfl⟩
  rw [hl]; simp

/-- C19 as amended, on the page with two forms and the payload "pw1=s1&pw2=s2":
the second form is the last with a matched password input, and the password
returned is "s2". -/
theorem extractFormData_last_form_witness :
    (extractFormData true twoFormPage "pw1=s1&pw2=s2".toList).found = true ∧
    (extractFormData true twoFormPage "pw1=s1&pw2=s2".toList).username = [] ∧
    ∃ e ∈ FormElement.findAll ⟨[⟨"text".toList, "usr2".toList, [], "bob".toList⟩,
          ⟨"password".toList, "pw2".toList, [], "s2".toList⟩]⟩ passwordSelector,
      passwordMatches (createQueryItems true
        (convertWebKitFormBoundaryIfNecessary "pw1=s1&pw2=s2".toList)) e = true ∧
      (extractFormData true twoFormPage "pw1=s1&pw2=s2".toList).password = e.liveValue :=
  extractFormData_last_form true twoFormPage "pw1=s1&pw2=s2".toList
    [⟨[⟨"text".toList, "usr1".toList, [], "alice".toList⟩,
       ⟨"password".toList, "pw1".toList, [], "s1".toList⟩]⟩] []
    ⟨[⟨"text".toList, "usr2".toList, [], "bob".toList⟩,
      ⟨"password".toList, "pw2".toList, [], "s2".toList⟩]⟩
    twoFormPage_forms
    (by rw [twoFormPage_forms]; decide)
    (by decide) (by decide)

/- ## C20 -/

theorem findUsernameIn_mem (l : List InputElement) :
    findUsernameIn l = none ∨ ∃ u ∈ l, findUsernameIn l = some (u.name, u.liveValue) := by
  induction l with
  | nil => exact Or.inl rfl
  | cons x rest ih =>
    rw [findUsernameIn]
    split
    · exact Or.inr ⟨x, by simp, rfl⟩
    · rcases ih with h | ⟨u, hu, h⟩
      · exact Or.inl h
      · exact Or.inr ⟨u, List.mem_cons_of_mem _ hu, h⟩

theorem findUsernameLoop_mem (form : FormElement) (sels : List (InputElement → Bool)) :
    findUsernameLoop form sels = ([], []) ∨
      ∃ u ∈ form.inputs, findUsernameLoop form sels = (u.name, u.liveValue) := by
  induction sels with
  | nil => exact Or.inl rfl
  | cons sel rest ih =>
    rw [findUsernameLoop]
    rcases findUsernameIn_mem (form.findAll sel) with h | ⟨u, hu, h⟩
    · rw [h]; exact ih
    · rw [h]
      refine Or.inr ⟨u, ?_, rfl⟩
      simp only [FormElement.findAll, List.mem_filter] at hu
      exact hu.1

theorem scanFlat_username (items : QueryItems) (l : List (FormElement × InputElement))
    (h : (scanFlat items l ⟨[], []⟩).1.usernameValue ≠ []) :
    ∃ x ∈ l, passwordMatches items x.2 = true ∧ usernameValidates items x.1 = true ∧
      (scanFlat items l ⟨[], []⟩).1 = ⟨(findUsername x.1).2, x.2.liveValue⟩ := by
  by_cases hex : ∃ x ∈ l,
      (passwordMatches items x.2 && usernameValidates items x.1) = true
  · obtain ⟨a, e, b, hl, he, ha⟩ := exists_first_of_exists
      (fun x => passwordMatches items x.2 && usernameValidates items x.1) l hex
    simp only [Bool.and_eq_true] at he
    have hs := scanFlat_first_validated items a b e.1 e.2 ⟨[], []⟩ (by
      intro y hy hc
      have := ha y hy
      simp [hc.1, hc.2] at this) he.1 he.2
    refine ⟨e, by rw [hl]; simp, he.1, he.2, ?_⟩
    rw [hl, hs]
  · have hu := (scanFlat_unvalidated items l ⟨[], []⟩ (by
      intro x hx hc
      exact hex ⟨x, hx, by simp [hc.1, hc.2]⟩)).1
    exact absurd hu h

/-- C20: username and password come from the same form. When extractFormData
returns a non-empty username, found is true and one collected form holds both a
password input whose live value is the returned password and an input whose
live value is the returned username, the pairs of both being accepted by
queryItemsContains against the decoded items. -/
theorem extractFormData_same_form (qt5 : Bool) (page : QWebPage) (postData : QByteArray)
    (h : (extractFormData qt5 page postData).username ≠ []) :
    (extractFormData qt5 page postData).found = true ∧
    ∃ form ∈ getAllElementsFromPage page QWebFrame.findAllForms,
      (∃ e ∈ form.inputs, e.typeAttr = "password".toList ∧
        e.liveValue = (extractFormData qt5 page postData).password ∧
        queryItemsContains
          (createQueryItems qt5 (convertWebKitFormBoundaryIfNecessary postData))
          e.name e.liveValue = true) ∧
      (∃ u ∈ form.inputs,
        u.liveValue = (extractFormData qt5 page postData).username ∧
        queryItemsContains
          (createQueryItems qt5 (convertWebKitFormBoundaryIfNecessary postData))
          u.name u.liveValue = true) := by
  by_cases h1 : convertWebKitFormBoundaryIfNecessary postData = []
  · rw [extractFormData_invalid qt5 page postData (Or.inl h1)] at h
    exact absurd rfl h
  · by_cases h2 : '=' ∈ convertWebKitFormBoundaryIfNecessary postData
    · rw [extractFormData_scan qt5 page postData h1 h2] at h ⊢
      by_cases hpw : (scanForms (createQueryItems qt5
          (convertWebKitFormBoundaryIfNecessary postData))
          (getAllElementsFromPage page QWebFrame.findAllForms) ⟨[], []⟩).passwordValue = []
      · rw [if_pos hpw] at h
        exact absurd rfl h
      · rw [if_neg hpw] at h ⊢
        simp only at h ⊢
        rw [scanForms_eq_scanFlat] at h ⊢
        obtain ⟨x, hx, hm, hv, hres⟩ := scanFlat_username _ _ h
        rw [mem_passwordScan, mem_findAll_password] at hx
        refine ⟨trivial, x.1, hx.1, ⟨x.2, hx.2.1, hx.2.2, ?_, hm⟩, ?_⟩
        · rw [hres]
        · rcases findUsernameLoop_mem x.1 usernameSelectors with hfu | ⟨u, hu, hfu⟩
          · have hv2 := hv
            unfold usernameValidates findUsername at hv2
            rw [hfu] at hv2
            simp [queryItemsContains] at hv2
          · refine ⟨u, hu, ?_, ?_⟩
            · rw [hres]
              show u.liveValue = (findUsername x.1).2
              unfold findUsername
              rw [hfu]
            · have hv2 := hv
              unfold usernameValidates findUsername at hv2
              rw [hfu] at hv2
              exact hv2
    · rw [extractFormData_invalid qt5 page postData (Or.inr h2)] at h
      exact absurd rfl h

/-- C20 on the login page with the payload "user_login=alice&pw=secret": the
username returned is non-empty and both inputs lie in the login form. -/
theorem extractFormData_same_form_witness :
    (extractFormData true loginPage "user_login=alice&pw=secret".toList).found = true ∧
    ∃ form ∈ getAllElementsFromPage loginPage QWebFrame.findAllForms,
      (∃ e ∈ form.inputs, e.typeAttr = "password".toList ∧
        e.liveValue =
          (extractFormData true loginPage "user_login=alice&pw=secret".toList).password ∧
        queryItemsContains
          (createQueryItems true
            (convertWebKitFormBoundaryIfNecessary "user_login=alice&pw=secret".toList))
          e.name e.liveValue = true) ∧
      (∃ u ∈ form.inputs,
        u.liveValue =
          (extractFormData true loginPage "user_login=alice&pw=secret".toList).username ∧
        queryItemsContains
          (createQueryItems true
            (convertWebKitFormBoundaryIfNecessary "user_login=alice&pw=secret".toList))
          u.name u.liveValue = true) :=
  extractFormData_same_form true loginPage "user_login=alice&pw=secret".toList (by
    have hres : extractFormData true loginPage "user_login=alice&pw=secret".toList =
        ⟨true, "alice".toList, "secret".toList, "user_login=alice&pw=secret".toList⟩ := by
      simp only [extractFormData, loginPage_forms]
      decide
    rw [hres]
    decide)

/- ## C18 -/

theorem frameCount_append (a b : List QWebFrame) :
    frameCount (a ++ b) = frameCount a + frameCount b := by
  induction a with
  | nil => simp [frameCount]
  | cons g rest ih =>
    cases g with
    | mk nodes cs => simp [frameCount, ih]; omega

theorem frameCount_children (l : List QWebFrame) :
    frameCount (l.flatMap QWebFrame.childFrames) + l.length = frameCount l := by
  induction l with
  | nil => simp [frameCount]
  | cons g rest ih =>
    cases g with
    | mk nodes cs =>
      simp only [List.flatMap_cons, frameCount_append, QWebFrame.childFrames, frameCount,
        List.length_cons]
      omega

theorem levelOrder_eq (l : List QWebFrame) :
    levelOrder l = l ++ levelOrder (l.flatMap QWebFrame.childFrames) := by
  cases l with
  | nil =>
    rw [levelOrder]
    simp only [List.flatMap_nil, List.nil_append]
    rw [levelOrder]
  | cons f fs => rw [levelOrder]

theorem getAllElementsLoop_level {α : Type} (sel : QWebFrame → List α)
    (a b : List QWebFrame) (list : List α) :
    getAllElementsLoop sel (a ++ b) list =
      getAllElementsLoop sel (b ++ a.flatMap QWebFrame.childFrames)
        (list ++ a.flatMap sel) := by
  induction a generalizing b list with
  | nil => simp
  | cons f rest ih =>
    rw [List.cons_append, getAllElementsLoop_cons, List.append_assoc, ih]
    simp [List.append_assoc]

theorem getAllElementsLoop_eq_levelOrder {α : Type} (sel : QWebFrame → List α)
    (n : Nat) : ∀ (q : List QWebFrame) (list : List α), frameCount q ≤ n →
    getAllElementsLoop sel q list = list ++ (levelOrder q).flatMap sel := by
  induction n with
  | zero =>
    intro q list hq
    cases q with
    | nil => rw [getAllElementsLoop_nil, levelOrder]; simp
    | cons f fs =>
      cases f with
      | mk nodes cs => simp only [frameCount] at hq; omega
  | succ n ih =>
    intro q list hq
    cases q with
    | nil => rw [getAllElementsLoop_nil, levelOrder]; simp
    | cons f fs =>
      have h1 := getAllElementsLoop_level sel (f :: fs) [] list
      simp only [List.append_nil, List.nil_append] at h1
      have hc := frameCount_children (f :: fs)
      simp only [List.length_cons] at hc
      rw [h1, ih _ _ (by omega), levelOrder_eq (f :: fs)]
      simp [List.append_assoc]

theorem levelOrder_perm_append (n : Nat) : ∀ (a b : List QWebFrame),
    frameCount (a ++ b) ≤ n →
    (levelOrder (a ++ b)).Perm (levelOrder a ++ levelOrder b) := by
  induction n with
  | zero =>
    intro a b h
    have ha : a = [] := by
      cases a with
      | nil => rfl
      | cons f fs =>
        cases f with
        | mk nodes cs => simp only [List.cons_append, frameCount] at h; omega
    have hb : b = [] := by
      subst ha
      cases b with
      | nil => rfl
      | cons f fs =>
        cases f with
        | mk nodes cs => simp only [List.nil_append, frameCount] at h; omega
    subst ha hb
    rw [List.append_nil, levelOrder]
    simp
  | succ n ih =>
    intro a b h
    by_cases hab : a ++ b = []
    · have ha : a = [] := (List.append_eq_nil.1 hab).1
      have hb : b = [] := (List.append_eq_nil.1 hab).2
      subst ha hb
      rw [List.append_nil, levelOrder]
      simp
    · have hc := frameCount_children (a ++ b)
      have hlen : 0 < (a ++ b).length := List.length_pos.2 hab
      have hrec := ih (a.flatMap QWebFrame.childFrames) (b.flatMap QWebFrame.childFrames)
        (by rw [← List.flatMap_append]; omega)
      rw [levelOrder_eq (a ++ b), levelOrder_eq a, levelOrder_eq b, List.flatMap_append]
      have h1 : ((a ++ b) ++ levelOrder (a.flatMap QWebFrame.childFrames ++
          b.flatMap QWebFrame.childFrames)).Perm
          ((a ++ b) ++ (levelOrder (a.flatMap QWebFrame.childFrames) ++
            levelOrder (b.flatMap QWebFrame.childFrames))) :=
        List.Perm.append_left _ hrec
      refine h1.trans ?_
      simp only [List.append_assoc]
      apply List.Perm.append_left
      rw [← List.append_assoc, ← List.append_assoc]
      exact List.Perm.append_right _ List.perm_append_comm

theorem levelOrder_perm_allFrames (n : Nat) : ∀ (q : List QWebFrame), frameCount q ≤ n →
    (levelOrder q).Perm (allFrames q) := by
  induction n with
  | zero =>
    intro q h
    cases q with
    | nil => rw [levelOrder, allFrames]
    | cons f fs =>
      cases f with
      | mk nodes cs => simp only [frameCount] at h; omega
  | succ n ih =>
    intro q h
    cases q with
    | nil => rw [levelOrder, allFrames]
    | cons f fs =>
      cases f with
      | mk nodes cs =>
        simp only [frameCount] at h
        have h1 := levelOrder_perm_append (frameCount ([QWebFrame.mk nodes cs] ++ fs))
          [QWebFrame.mk nodes cs] fs (Nat.le_refl _)
        have h2 : levelOrder [QWebFrame.mk nodes cs] = QWebFrame.mk nodes cs :: levelOrder cs := by
          rw [levelOrder_eq]
          simp [QWebFrame.childFrames]
        rw [h2] at h1
        simp only [List.singleton_append, List.cons_append] at h1
        rw [allFrames]
        refine h1.trans (List.Perm.cons _ ?_)
        exact List.Perm.append (ih cs (by omega)) (ih fs (by omega))

/-- C18: for every frame tree and selector, getAllElementsFromPage (a total
function) returns the concatenation of the frames' matching elements, each in
its frame's own order, over the frames in breadth-first order from the main
frame; that order lists every frame of the tree exactly once (it is a
permutation of the pre-order listing); and the matches of the main frame come
before those of every frame below it. -/
theorem getAllElementsFromPage_breadth_first {α : Type} (page : QWebPage)
    (sel : QWebFrame → List α) :
    getAllElementsFromPage page sel = (levelOrder [page.mainFrame]).flatMap sel ∧
    (levelOrder [page.mainFrame]).Perm (allFrames [page.mainFrame]) ∧
    getAllElementsFromPage page sel =
      sel page.mainFrame ++ (levelOrder page.mainFrame.childFrames).flatMap sel := by
  have h1 : getAllElementsFromPage page sel = (levelOrder [page.mainFrame]).flatMap sel := by
    unfold getAllElementsFromPage
    rw [getAllElementsLoop_eq_levelOrder sel _ _ _ (Nat.le_refl _)]
    simp
  refine ⟨h1, levelOrder_perm_allFrames _ _ (Nat.le_refl _), ?_⟩
  rw [h1, levelOrder_eq]
  simp

/-- The walk on the page with nested frames: the form of frame B, a child of the
main frame, comes before the form of frame C, which lies below frame A. -/
theorem getAllElementsFromPage_nested :
    getAllElementsFromPage nestedFramePage QWebFrame.findAllForms =
      [namedForm "root", namedForm "a", namedForm "b", namedForm "c"] := by
  simp [getAllElementsFromPage, nestedFramePage, getAllElementsLoop_cons,
    getAllElementsLoop_nil, QWebFrame.childFrames, QWebFrame.findAllForms, QWebFrame.nodes]

/- ## The document after completePage -/

theorem mapInputsFrames_eq_map (g : InputElement → InputElement) (l : List QWebFrame) :
    mapInputsFrames g l = l.map (mapInputsFrame g) := by
  induction l with
  | nil => simp [mapInputsFrames]
  | cons f rest ih =>
    cases f with
    | mk nodes cs => rw [mapInputsFrames, List.map_cons, mapInputsFrame, ih]

theorem mapInputsNode_comp (g h : InputElement → InputElement) (x : Node) :
    mapInputsNode g (mapInputsNode h x) = mapInputsNode (g ∘ h) x := by
  cases x with
  | input e => rfl
  | form f => simp [mapInputsNode]

theorem mapInputsFrames_comp (g h : InputElement → InputElement) (n : Nat) :
    ∀ l : List QWebFrame, frameCount l ≤ n →
      mapInputsFrames g (mapInputsFrames h l) = mapInputsFrames (g ∘ h) l := by
  induction n with
  | zero =>
    intro l hl
    cases l with
    | nil => simp [mapInputsFrames]
    | cons f fs =>
      cases f with
      | mk nodes cs => simp only [frameCount] at hl; omega
  | succ n ih =>
    intro l hl
    cases l with
    | nil => simp [mapInputsFrames]
    | cons f fs =>
      cases f with
      | mk nodes cs =>
        simp only [frameCount] at hl
        simp only [mapInputsFrames, List.map_map, ih cs (by omega), ih fs (by omega)]
        congr 2
        apply List.map_congr_left
        intro x _
        exact mapInputsNode_comp g h x

theorem mapInputsFrame_comp (g h : InputElement → InputElement) (f : QWebFrame) :
    mapInputsFrame g (mapInputsFrame h f) = mapInputsFrame (g ∘ h) f := by
  cases f with
  | mk nodes cs =>
    simp only [mapInputsFrame, List.map_map,
      mapInputsFrames_comp g h (frameCount cs) cs (Nat.le_refl _)]
    congr 1
    apply List.map_congr_left
    intro x _
    exact mapInputsNode_comp g h x

theorem mapInputsNode_fixed (g : InputElement → InputElement) (x : Node)
    (h : ∀ e ∈ (match x with
      | .form f => f.inputs
      | .input e => [e]), g e = e) :
    mapInputsNode g x = x := by
  cases x with
  | input e =>
    simp only [mapInputsNode]
    rw [h e (by simp)]
  | form f =>
    simp only [mapInputsNode]
    have : f.inputs.map g = f.inputs := by
      conv => rhs; rw [← List.map_id f.inputs]
      apply List.map_congr_left
      intro e he
      exact h e he
    rw [this]

theorem mapInputsNodes_fixed (g : InputElement → InputElement) (nodes : List Node)
    (cs : List QWebFrame)
    (h : ∀ e ∈ (QWebFrame.mk nodes cs).findAllInputs, g e = e) :
    nodes.map (mapInputsNode g) = nodes := by
  conv => rhs; rw [← List.map_id nodes]
  apply List.map_congr_left
  intro x hx
  apply mapInputsNode_fixed
  intro e he
  apply h
  simp only [QWebFrame.findAllInputs, QWebFrame.nodes, List.mem_flatMap]
  exact ⟨x, hx, he⟩

theorem mapInputsFrames_fixed (g : InputElement → InputElement) (n : Nat) :
    ∀ l : List QWebFrame, frameCount l ≤ n →
      (∀ e ∈ (allFrames l).flatMap QWebFrame.findAllInputs, g e = e) →
      mapInputsFrames g l = l := by
  induction n with
  | zero =>
    intro l hl _
    cases l with
    | nil => simp [mapInputsFrames]
    | cons f fs =>
      cases f with
      | mk nodes cs => simp only [frameCount] at hl; omega
  | succ n ih =>
    intro l hl h
    cases l with
    | nil => simp [mapInputsFrames]
    | cons f fs =>
      cases f with
      | mk nodes cs =>
        simp only [frameCount] at hl
        simp only [allFrames, List.flatMap_cons, List.flatMap_append, List.mem_append] at h
        rw [mapInputsFrames, mapInputsNodes_fixed g nodes cs (fun e he => h e (Or.inl he)),
          ih cs (by omega) (fun e he => h e (Or.inr (Or.inl he))),
          ih fs (by omega) (fun e he => h e (Or.inr (Or.inr he)))]

theorem childFrames_mapInputsFrame (g : InputElement → InputElement) (f : QWebFrame) :
    (mapInputsFrame g f).childFrames = f.childFrames.map (mapInputsFrame g) := by
  cases f with
  | mk nodes cs => simp [mapInputsFrame, QWebFrame.childFrames, mapInputsFrames_eq_map]

theorem findAllInputs_mapInputsFrame (g : InputElement → InputElement) (f : QWebFrame) :
    (mapInputsFrame g f).findAllInputs = f.findAllInputs.map g := by
  cases f with
  | mk nodes cs =>
    simp only [mapInputsFrame, QWebFrame.findAllInputs, QWebFrame.nodes]
    induction nodes with
    | nil => rfl
    | cons x rest ih =>
      simp only [List.map_cons, List.flatMap_cons, List.map_append, ih]
      cases x with
      | input e => rfl
      | form fm => rfl

theorem levelOrder_mapInputs (g : InputElement → InputElement) (n : Nat) :
    ∀ l : List QWebFrame, frameCount l ≤ n →
      levelOrder (l.map (mapInputsFrame g)) = (levelOrder l).map (mapInputsFrame g) := by
  induction n with
  | zero =>
    intro l hl
    cases l with
    | nil => rw [List.map_nil, levelOrder]; rfl
    | cons f fs =>
      cases f with
      | mk nodes cs => simp only [frameCount] at hl; omega
  | succ n ih =>
    intro l hl
    cases l with
    | nil => rw [List.map_nil, levelOrder]; rfl
    | cons f fs =>
      have hc := frameCount_children (f :: fs)
      simp only [List.length_cons] at hc
      have hch : ((f :: fs).map (mapInputsFrame g)).flatMap QWebFrame.childFrames =
          ((f :: fs).flatMap QWebFrame.childFrames).map (mapInputsFrame g) := by
        generalize (f :: fs) = q
        induction q with
        | nil => rfl
        | cons x xs ihx =>
          simp only [List.map_cons, List.flatMap_cons, List.map_append, ihx,
            childFrames_mapInputsFrame]
      rw [levelOrder_eq, hch, ih _ (by omega), levelOrder_eq (f :: fs), List.map_append]

theorem getAllInputs_mapInputs (g : InputElement → InputElement) (page : QWebPage) :
    getAllElementsFromPage ⟨mapInputsFrame g page.mainFrame⟩ QWebFrame.findAllInputs =
      (getAllElementsFromPage page QWebFrame.findAllInputs).map g := by
  unfold getAllElementsFromPage
  rw [getAllElementsLoop_eq_levelOrder _ _ _ _ (Nat.le_refl _),
    getAllElementsLoop_eq_levelOrder _ _ _ _ (Nat.le_refl _)]
  have h := levelOrder_mapInputs g _ [page.mainFrame] (Nat.le_refl _)
  simp only [List.map_cons, List.map_nil] at h
  simp only [List.nil_append, h]
  generalize levelOrder [page.mainFrame] = q
  induction q with
  | nil => rfl
  | cons x xs ih =>
    simp only [List.map_cons, List.flatMap_cons, List.map_append, ih,
      findAllInputs_mapInputsFrame]

theorem mem_getAllInputs (page : QWebPage) (e : InputElement) :
    e ∈ getAllElementsFromPage page QWebFrame.findAllInputs ↔
      e ∈ (allFrames [page.mainFrame]).flatMap QWebFrame.findAllInputs := by
  unfold getAllElementsFromPage
  rw [getAllElementsLoop_eq_levelOrder _ _ _ _ (Nat.le_refl _)]
  have hp := levelOrder_perm_allFrames _ [page.mainFrame] (Nat.le_refl _)
  simp only [List.nil_append, List.mem_flatMap]
  constructor
  · rintro ⟨f, hf, he⟩
    exact ⟨f, hp.mem_iff.1 hf, he⟩
  · rintro ⟨f, hf, he⟩
    exact ⟨f, hp.mem_iff.2 hf, he⟩

theorem completeItems_eq (items : QueryItems) (page : QWebPage) :
    completeItems items page = ⟨mapInputsFrame (fillElement items) page.mainFrame⟩ := by
  induction items generalizing page with
  | nil =>
    rw [completeItems]
    have hfix : mapInputsFrames (fillElement []) [page.mainFrame] = [page.mainFrame] :=
      mapInputsFrames_fixed _ _ _ (Nat.le_refl _) (fun e _ => rfl)
    rw [mapInputsFrames_eq_map] at hfix
    simp only [List.map_cons, List.map_nil, List.cons.injEq, and_true] at hfix
    rw [hfix]
  | cons item rest ih =>
    rw [completeItems, ih, completeInputs, mapInputsFrame_comp]
    rfl

/- ## One input element under completePage -/

theorem completeElement_not_fillable (k v : QString) (e : InputElement)
    (h : fillable e = false) : completeElement k v e = e := by
  unfold fillable at h
  simp only [Bool.or_eq_false_iff] at h
  have hc : (!inputTypes.contains e.typeAttr && !e.typeAttr.isEmpty) = true := by
    rw [h.1, h.2]; rfl
  unfold completeElement
  exact if_pos hc

theorem completeElement_fillable (k v : QString) (e : InputElement)
    (h : fillable e = true) :
    completeElement k v e = { e with value := if k = e.name then v else e.value } := by
  unfold fillable at h
  unfold completeElement
  have hc : (!inputTypes.contains e.typeAttr && !e.typeAttr.isEmpty) = false := by
    rcases Bool.or_eq_true_iff.1 h with h | h
    · rw [h, Bool.not_true, Bool.and_false]
    · rw [h, Bool.not_true, Bool.false_and]
  rw [if_neg (by rw [hc]; exact Bool.false_ne_true)]
  by_cases hk : k = e.name
  · simp [hk]
  · simp [hk]

theorem fillElement_cons (item : QueryItem) (rest : QueryItems) (e : InputElement) :
    fillElement (item :: rest) e = fillElement rest (completeElement item.1 item.2 e) := rfl

theorem fillElement_not_fillable (items : QueryItems) (e : InputElement)
    (h : fillable e = false) : fillElement items e = e := by
  induction items with
  | nil => rfl
  | cons item rest ih => rw [fillElement_cons, completeElement_not_fillable _ _ _ h, ih]

theorem fillElement_fillable (items : QueryItems) (e : InputElement)
    (h : fillable e = true) :
    fillElement items e = { e with value := lastValue e.name items e.value } := by
  induction items generalizing e with
  | nil => rfl
  | cons item rest ih =>
    rw [fillElement_cons, completeElement_fillable _ _ _ h, ih _ (by simpa [fillable] using h)]
    simp [lastValue]

theorem fillElement_attrs (items : QueryItems) (e : InputElement) :
    (fillElement items e).typeAttr = e.typeAttr ∧ (fillElement items e).name = e.name ∧
      (fillElement items e).liveValue = e.liveValue := by
  by_cases h : fillable e = true
  · rw [fillElement_fillable items e h]
    exact ⟨rfl, rfl, rfl⟩
  · rw [fillElement_not_fillable items e (by simpa using h)]
    exact ⟨rfl, rfl, rfl⟩

theorem lastValue_no_key (k : QString) (items : QueryItems) (d : QString)
    (h : ∀ it ∈ items, it.1 ≠ k) : lastValue k items d = d := by
  induction items generalizing d with
  | nil => rfl
  | cons item rest ih =>
    rw [lastValue, if_neg (h item (by simp))]
    exact ih d (fun it hit => h it (by simp [hit]))

theorem lastValue_append (k : QString) (a b : QueryItems) (d : QString) :
    lastValue k (a ++ b) d = lastValue k b (lastValue k a d) := by
  induction a generalizing d with
  | nil => rfl
  | cons item rest ih => rw [List.cons_append, lastValue, lastValue, ih]

theorem lastValue_last (k v : QString) (pre post : QueryItems) (d : QString)
    (h : ∀ it ∈ post, it.1 ≠ k) : lastValue k (pre ++ (k, v) :: post) d = v := by
  rw [lastValue_append, lastValue]
  simp only [if_true]
  exact lastValue_no_key k post v h

theorem lastValue_cases (k : QString) (items : QueryItems) :
    (∀ d d2, lastValue k items d = lastValue k items d2) ∨
      (∀ d, lastValue k items d = d) := by
  induction items with
  | nil => exact Or.inr (fun _ => rfl)
  | cons item rest ih =>
    by_cases hk : item.1 = k
    · left
      intro d d2
      simp only [lastValue, hk, if_true]
    · rcases ih with h | h
      · left
        intro d d2
        simp only [lastValue, hk, if_false]
        exact h d d2
      · right
        intro d
        simp only [lastValue, hk, if_false]
        exact h d

theorem fillElement_no_key (items : QueryItems) (e : InputElement)
    (h : ∀ it ∈ items, it.1 ≠ e.name) : fillElement items e = e := by
  by_cases hf : fillable e = true
  · rw [fillElement_fillable items e hf, lastValue_no_key _ _ _ h]
  · exact fillElement_not_fillable items e (by simpa using hf)

theorem fillElement_idem (items : QueryItems) (e : InputElement) :
    fillElement items (fillElement items e) = fillElement items e := by
  by_cases hf : fillable e = true
  · rw [fillElement_fillable items e hf]
    rw [fillElement_fillable items _ (by simpa [fillable] using hf)]
    simp only
    rcases lastValue_cases e.name items with h | h
    · rw [h (lastValue e.name items e.value) e.value]
    · rw [h]
  · rw [fillElement_not_fillable items e (by simpa using hf),
      fillElement_not_fillable items e (by simpa using hf)]

/- ## C15 -/

/-- C15: completePage changes nothing but value attributes. The document after
the call is the document before with each input element e replaced by
fillElement items e, where items are the decoded items; fillElement keeps the
type and name attributes and the live value; it leaves an input unchanged when
its type is explicit and none of text, password, email, and when its name equals
no item key; so when no input of the page matches, the document is unchanged. -/
theorem completePage_frame (qt5 : Bool) (page : QWebPage) (data : QByteArray) :
    completePage qt5 page data =
      ⟨mapInputsFrame (fillElement (createQueryItems qt5 data)) page.mainFrame⟩ ∧
    (∀ e : InputElement,
      (fillElement (createQueryItems qt5 data) e).typeAttr = e.typeAttr ∧
      (fillElement (createQueryItems qt5 data) e).name = e.name ∧
      (fillElement (createQueryItems qt5 data) e).liveValue = e.liveValue) ∧
    (∀ e : InputElement, fillable e = false →
      fillElement (createQueryItems qt5 data) e = e) ∧
    (∀ e : InputElement, (∀ it ∈ createQueryItems qt5 data, it.1 ≠ e.name) →
      fillElement (createQueryItems qt5 data) e = e) ∧
    ((∀ e ∈ getAllElementsFromPage page QWebFrame.findAllInputs,
        fillable e = false ∨ ∀ it ∈ createQueryItems qt5 data, it.1 ≠ e.name) →
      completePage qt5 page data = page) := by
  have h1 : completePage qt5 page data =
      ⟨mapInputsFrame (fillElement (createQueryItems qt5 data)) page.mainFrame⟩ :=
    completeItems_eq _ page
  refine ⟨h1, fillElement_attrs _, fun e he => fillElement_not_fillable _ e he,
    fun e he => fillElement_no_key _ e he, ?_⟩
  intro hall
  rw [h1]
  have hfix : mapInputsFrames (fillElement (createQueryItems qt5 data)) [page.mainFrame] =
      [page.mainFrame] := by
    apply mapInputsFrames_fixed _ _ _ (Nat.le_refl _)
    intro e he
    rcases hall e ((mem_getAllInputs page e).2 he) with h | h
    · exact fillElement_not_fillable _ e h
    · exact fillElement_no_key _ e h
  rw [mapInputsFrames_eq_map] at hfix
  simp only [List.map_cons, List.map_nil, List.cons.injEq, and_true] at hfix
  rw [hfix]

/-- C15 on the page with a text input q and a hidden input q and the payload
"q=hello": only the value of the text input becomes "hello"; and with the
payload "x=1", whose key names no input, the page is unchanged. -/
theorem completePage_frame_witness :
    completePage true searchPage "q=hello".toList =
      ⟨.mk [.input ⟨"text".toList, "q".toList, "hello".toList, []⟩,
            .input ⟨"hidden".toList, "q".toList, [], []⟩] []⟩ ∧
    completePage true searchPage "x=1".toList = searchPage := by
  constructor
  · rw [(completePage_frame true searchPage "q=hello".toList).1]
    have e1 : fillElement (createQueryItems true "q=hello".toList)
        ⟨"text".toList, "q".toList, [], []⟩ =
        ⟨"text".toList, "q".toList, "hello".toList, []⟩ := by decide
    have e2 : fillElement (createQueryItems true "q=hello".toList)
        ⟨"hidden".toList, "q".toList, [], []⟩ =
        ⟨"hidden".toList, "q".toList, [], []⟩ := by decide
    simp only [searchPage, mapInputsFrame, mapInputsFrames, List.map_cons, List.map_nil,
      mapInputsNode, e1, e2]
  · apply (completePage_frame true searchPage "x=1".toList).2.2.2.2
    intro e he
    rw [searchPage, getAllElementsFromPage_leaf] at he
    right
    have he2 : e = ⟨"text".toList, "q".toList, [], []⟩ ∨
        e = ⟨"hidden".toList, "q".toList, [], []⟩ := by
      simpa [QWebFrame.findAllInputs, QWebFrame.nodes] using he
    rcases he2 with rfl | rfl <;> decide

/- ## C16 -/

/-- C16: after completePage the collected inputs are the collected inputs of
before, each with every decoded item applied once, in item order; and every
input whose type is absent, text, password or email and whose name is the key
of some item carries the value of the last item with that key. -/
theorem completePage_last_item (qt5 : Bool) (page : QWebPage) (data : QByteArray) :
    getAllElementsFromPage (completePage qt5 page data) QWebFrame.findAllInputs =
      (getAllElementsFromPage page QWebFrame.findAllInputs).map
        (fun e => (createQueryItems qt5 data).foldl
          (fun e item => completeElement item.1 item.2 e) e) ∧
    (∀ e ∈ getAllElementsFromPage page QWebFrame.findAllInputs, fillable e = true →
      ∀ (pre post : QueryItems) (v : QString),
        createQueryItems qt5 data = pre ++ (e.name, v) :: post →
        (∀ it ∈ post, it.1 ≠ e.name) →
        (fillElement (createQueryItems qt5 data) e).value = v) := by
  constructor
  · have h1 : completePage qt5 page data =
        ⟨mapInputsFrame (fillElement (createQueryItems qt5 data)) page.mainFrame⟩ :=
      completeItems_eq _ page
    rw [h1, getAllInputs_mapInputs]
    rfl
  · intro e _ hf pre post v hitems hpost
    rw [fillElement_fillable _ e hf, hitems]
    exact lastValue_last e.name v pre post e.value hpost

/-- C16 on the page with a text input q and an untyped input q holding "old",
and the payload "q=1&q=2": both inputs end with the value "2". -/
theorem completePage_last_item_witness :
    getAllElementsFromPage (completePage true twoSearchPage "q=1&q=2".toList)
        QWebFrame.findAllInputs =
      [⟨"text".toList, "q".toList, "2".toList, []⟩, ⟨[], "q".toList, "2".toList, []⟩] := by
  rw [(completePage_last_item true twoSearchPage "q=1&q=2".toList).1, twoSearchPage,
    getAllElementsFromPage_leaf]
  decide

/- ## C17 -/

/-- C17: completePage is idempotent: running it twice with the same payload
leaves the document in the state reached after the first run. -/
theorem completePage_idempotent (qt5 : Bool) (page : QWebPage) (data : QByteArray) :
    completePage qt5 (completePage qt5 page data) data = completePage qt5 page data := by
  unfold completePage
  rw [completeItems_eq _ page, completeItems_eq, mapInputsFrame_comp]
  have : fillElement (createQueryItems qt5 data) ∘ fillElement (createQueryItems qt5 data) =
      fillElement (createQueryItems qt5 data) := by
    funext e
    exact fillElement_idem _ e
  rw [this]

/- ## Searching in composed strings -/

theorem indexOf_none_iff (s pat : List Char) :
    indexOf s pat = none ↔ containsSeq s pat = false := by
  unfold containsSeq
  cases indexOf s pat <;> simp

theorem containsSeq_nil_pattern (pat : List Char) (hp : pat ≠ []) :
    containsSeq [] pat = false := by
  cases pat with
  | nil => exact absurd rfl hp
  | cons p ps => rfl

theorem containsSeq_cons_false (c : Char) (cs pat : List Char)
    (h : containsSeq (c :: cs) pat = false) :
    startsWith (c :: cs) pat = false ∧ containsSeq cs pat = false := by
  unfold containsSeq at h ⊢
  rw [indexOf] at h
  by_cases hs : startsWith (c :: cs) pat = true
  · rw [if_pos hs] at h; cases h
  · rw [if_neg hs] at h
    refine ⟨by simpa using hs, ?_⟩
    cases hi : indexOf cs pat with
    | none => rfl
    | some k => rw [hi] at h; cases h

theorem containsSeq_cons_of_false (c : Char) (cs pat : List Char)
    (h1 : startsWith (c :: cs) pat = false) (h2 : containsSeq cs pat = false) :
    containsSeq (c :: cs) pat = false := by
  unfold containsSeq at h2 ⊢
  rw [indexOf, h1]
  simp only [Bool.false_eq_true, if_false]
  cases hi : indexOf cs pat with
  | none => rfl
  | some k => rw [hi] at h2; cases h2

theorem startsWith_append_of_le (pat x y : List Char) (h : pat.length ≤ x.length) :
    startsWith (x ++ y) pat = startsWith x pat := by
  induction pat generalizing x with
  | nil => simp [startsWith]
  | cons p ps ih =>
    cases x with
    | nil => simp at h
    | cons c cs =>
      rw [List.cons_append, startsWith, startsWith, ih cs (by simpa using h)]

theorem startsWith_self_append (pat b : List Char) : startsWith (pat ++ b) pat = true := by
  induction pat with
  | nil => simp [startsWith]
  | cons p ps ih => simp [startsWith, ih]

theorem startsWith_of_separator (pat u y : List Char) (c : Char) (hc : c ∉ pat)
    (h : startsWith (u ++ c :: y) pat = true) : startsWith u pat = true := by
  induction pat generalizing u with
  | nil => simp [startsWith]
  | cons p ps ih =>
    cases u with
    | nil =>
      simp only [List.nil_append, startsWith, Bool.and_eq_true, beq_iff_eq] at h
      exact absurd (by rw [h.1]; simp) hc
    | cons d ds =>
      simp only [List.cons_append, startsWith, Bool.and_eq_true, beq_iff_eq] at h ⊢
      exact ⟨h.1, ih ds (fun hh => hc (List.mem_cons_of_mem _ hh)) h.2⟩

/-- A character that does not occur in pat separates the occurrences of pat:
none in x and none in y means none in x ++ c :: y. -/
theorem containsSeq_separator (pat x y : List Char) (c : Char) (hc : c ∉ pat)
    (hx : containsSeq x pat = false) (hy : containsSeq y pat = false) :
    containsSeq (x ++ c :: y) pat = false := by
  induction x with
  | nil =>
    apply containsSeq_cons_of_false _ _ _ _ hy
    by_contra hs
    have := startsWith_of_separator pat [] y c hc (by simpa using hs)
    cases pat with
    | nil => simp [containsSeq, indexOf] at hx
    | cons p ps => simp [startsWith] at this
  | cons d ds ih =>
    obtain ⟨h1, h2⟩ := containsSeq_cons_false d ds pat hx
    rw [List.cons_append]
    apply containsSeq_cons_of_false _ _ _ _ (ih h2)
    by_contra hs
    have := startsWith_of_separator pat (d :: ds) y c hc (by simpa using hs)
    rw [h1] at this
    cases this

theorem containsSeq_prepend (pat w y : List Char) (hp : pat ≠ [])
    (hw : ∀ c ∈ w, c ∉ pat) (hy : containsSeq y pat = false) :
    containsSeq (w ++ y) pat = false := by
  induction w with
  | nil => exact hy
  | cons d ds ih =>
    have := containsSeq_separator pat [] (ds ++ y) d (hw d (by simp))
      (containsSeq_nil_pattern pat hp) (ih (fun c hc => hw c (by simp [hc])))
    simpa using this

theorem containsSeq_extend (pat x w : List Char) (hp : pat ≠ [])
    (hw : ∀ c ∈ w, c ∉ pat) (hx : containsSeq x pat = false) :
    containsSeq (x ++ w) pat = false := by
  cases w with
  | nil => simpa using hx
  | cons d ds =>
    apply containsSeq_separator pat x ds d (hw d (by simp)) hx
    have := containsSeq_prepend pat ds [] hp (fun c hc => hw c (by simp [hc]))
      (containsSeq_nil_pattern pat hp)
    simpa using this

/-- The first occurrence of the pattern init ++ [l] in a ++ (init ++ [l]) ++ b
is at offset a.length when the pattern does not occur in a ++ init. -/
theorem indexOf_first (a init b : List Char) (l : Char)
    (h : containsSeq (a ++ init) (init ++ [l]) = false) :
    indexOf (a ++ (init ++ [l]) ++ b) (init ++ [l]) = some a.length := by
  induction a with
  | nil =>
    have hs := startsWith_self_append (init ++ [l]) b
    cases hlist : (init ++ [l]) ++ b with
    | nil => simp at hlist
    | cons c cs =>
      rw [List.nil_append, hlist, indexOf, ← hlist, hs]
      rfl
  | cons c cs ih =>
    obtain ⟨h1, h2⟩ := containsSeq_cons_false c (cs ++ init) _ h
    have hsw : startsWith (c :: (cs ++ (init ++ [l]) ++ b)) (init ++ [l]) = false := by
      have heq : c :: (cs ++ (init ++ [l]) ++ b) = (c :: (cs ++ init)) ++ (l :: b) := by simp
      rw [heq, startsWith_append_of_le _ _ _ (by simp)]
      exact h1
    rw [List.cons_append, List.cons_append, indexOf, hsw, ih h2]
    rfl

theorem containsSeq_singleton (s : List Char) (c : Char) (h : c ∉ s) :
    containsSeq s [c] = false := by
  induction s with
  | nil => rfl
  | cons d ds ih =>
    apply containsSeq_cons_of_false _ _ _ _ (ih (fun hh => h (List.mem_cons_of_mem _ hh)))
    have hd : d ≠ c := fun hh => h (by simp [hh])
    simp [startsWith, hd]

/- ## Trimming -/

theorem dropWhile_all (p : Char → Bool) (w t : List Char) (hw : ∀ c ∈ w, p c = true) :
    (w ++ t).dropWhile p = t.dropWhile p := by
  induction w with
  | nil => rfl
  | cons d ds ih =>
    rw [List.cons_append, List.dropWhile_cons, if_pos (hw d (by simp))]
    exact ih (fun c hc => hw c (by simp [hc]))

theorem dropWhile_head (p : Char → Bool) (t : List Char)
    (h : ∀ c, t.head? = some c → p c = false) : t.dropWhile p = t := by
  cases t with
  | nil => rfl
  | cons d ds =>
    rw [List.dropWhile_cons, if_neg (by rw [h d rfl]; exact Bool.false_ne_true)]

theorem trimmed_padded (w1 w2 v : List Char)
    (hw1 : ∀ c ∈ w1, isSpace c = true) (hw2 : ∀ c ∈ w2, isSpace c = true)
    (hh : ∀ c, v.head? = some c → isSpace c = false)
    (hl : ∀ c, v.getLast? = some c → isSpace c = false) :
    trimmed (w1 ++ v ++ w2) = v := by
  unfold trimmed
  rw [List.append_assoc, dropWhile_all _ _ _ hw1]
  cases v with
  | nil =>
    have : (w2 ++ []).dropWhile isSpace = [].dropWhile isSpace := dropWhile_all _ _ _ hw2
    simp only [List.nil_append]
    rw [List.append_nil] at this
    rw [this]
    rfl
  | cons d ds =>
    have h1 : ((d :: ds) ++ w2).dropWhile isSpace = (d :: ds) ++ w2 :=
      dropWhile_head _ _ (fun c hc => hh c (by simpa using hc))
    rw [h1, List.reverse_append,
      dropWhile_all _ _ _ (fun c hc => hw2 c (List.mem_reverse.1 hc)),
      dropWhile_head _ _ (fun c hc => hl c (by
        rw [List.getLast?_eq_head?_reverse]; exact hc)),
      List.reverse_reverse]

/- ## One match of the pattern -/

theorem convertLoop_step (s : List Char) (i : Nat) (string : List Char) (len : Nat)
    (h : rxIndexIn s = some (i, string, len)) :
    convertLoop s = captureOutput string ++ convertLoop (s.drop (i + len)) := by
  rw [convertLoop]
  split
  · rename_i hn; rw [h] at hn; cases hn
  · rename_i i2 string2 len2 hs
    rw [h] at hs
    simp only [Option.some.injEq, Prod.mk.injEq] at hs
    obtain ⟨rfl, rfl, rfl⟩ := hs
    unfold captureOutput
    cases hq : indexOf string ['"'] with
    | none => rfl
    | some e =>
      dsimp only
      by_cases hc : ((string.take e).isEmpty ||
          ((trimmed (string.drop (e + 1))).filter (· != '\n')).isEmpty) = true
      · rw [if_pos hc, if_pos hc]; rfl
      · rw [if_neg hc, if_neg hc]
        rfl

theorem rxIndexIn_of_parts (x cap rest : List Char)
    (h1 : containsSeq (x ++ "name=".toList) namePattern = false)
    (h2 : containsSeq (cap ++ "------WebKitFormBoundar".toList) boundaryMarker = false) :
    rxIndexIn (x ++ namePattern ++ cap ++ boundaryMarker ++ rest) =
      some (x.length, cap, namePattern.length + cap.length + boundaryMarker.length) := by
  have hnp : namePattern = "name=".toList ++ ['"'] := by decide
  have hbm : boundaryMarker = "------WebKitFormBoundar".toList ++ ['y'] := by decide
  have hi : indexOf (x ++ namePattern ++ cap ++ boundaryMarker ++ rest) namePattern =
      some x.length := by
    have := indexOf_first x "name=".toList (cap ++ boundaryMarker ++ rest) '"'
      (by rw [← hnp]; exact h1)
    rw [← hnp] at this
    simpa [List.append_assoc] using this
  have hdrop : (x ++ namePattern ++ cap ++ boundaryMarker ++ rest).drop
      (x.length + namePattern.length) = cap ++ boundaryMarker ++ rest := by
    have : x ++ namePattern ++ cap ++ boundaryMarker ++ rest =
        (x ++ namePattern) ++ (cap ++ boundaryMarker ++ rest) := by
      simp [List.append_assoc]
    rw [this, ← List.length_append, List.drop_left]
  have hj : indexOf (cap ++ boundaryMarker ++ rest) boundaryMarker = some cap.length := by
    have := indexOf_first cap "------WebKitFormBoundar".toList rest 'y'
      (by rw [← hbm]; exact h2)
    rw [← hbm] at this
    exact this
  unfold rxIndexIn
  rw [hi]
  simp only [hdrop, hj]
  rw [List.append_assoc, List.take_left]

theorem drop_of_parts (x cap rest : List Char) :
    (x ++ namePattern ++ cap ++ boundaryMarker ++ rest).drop
      (x.length + (namePattern.length + cap.length + boundaryMarker.length)) = rest := by
  have : x ++ namePattern ++ cap ++ boundaryMarker ++ rest =
      (x ++ namePattern ++ cap ++ boundaryMarker) ++ rest := rfl
  rw [this]
  have hlen : x.length + (namePattern.length + cap.length + boundaryMarker.length) =
      (x ++ namePattern ++ cap ++ boundaryMarker).length := by
    simp only [List.length_append]; omega
  rw [hlen, List.drop_left]

theorem isSpace_not_mem (c : Char) (h : isSpace c = true) :
    c ∉ namePattern ∧ c ∉ boundaryMarker ∧ c ≠ '"' ∧ c ∉ ['"'] := by
  have h1 : ∀ d ∈ namePattern, isSpace d = false := by decide
  have h2 : ∀ d ∈ boundaryMarker, isSpace d = false := by decide
  refine ⟨fun hc => ?_, fun hc => ?_, fun hc => ?_, fun hc => ?_⟩
  · rw [h1 c hc] at h; cases h
  · rw [h2 c hc] at h; cases h
  · rw [hc] at h; exact absurd h (by decide)
  · rw [List.mem_singleton] at hc; rw [hc] at h; exact absurd h (by decide)

/- ## Payloads written from parts -/

theorem contains_false (s : List Char) (c : Char) (h : s.contains c = false) : c ∉ s := by
  simpa using h

theorem option_all_some (o : Option Char) (h : o.all (fun c => !isSpace c) = true) :
    ∀ c, o = some c → isSpace c = false := by
  intro c hc
  rw [hc] at h
  simpa [Option.all] using h

theorem Part.admissible_facts (p : Part) (h : p.admissible = true) :
    containsSeq p.suffix namePattern = false ∧ '"' ∉ p.name ∧
    containsSeq p.name boundaryMarker = false ∧
    containsSeq p.value boundaryMarker = false ∧ '\n' ∉ p.value ∧
    (∀ c, p.value.head? = some c → isSpace c = false) ∧
    (∀ c, p.value.getLast? = some c → isSpace c = false) ∧
    (p.closed = true ∨ '"' ∉ p.value) := by
  unfold Part.admissible at h
  simp only [Bool.and_eq_true, Bool.not_eq_true', Bool.or_eq_true] at h
  obtain ⟨⟨⟨⟨⟨⟨⟨h1, h2⟩, h3⟩, h4⟩, h5⟩, h6⟩, h7⟩, h8⟩ := h
  refine ⟨h1, contains_false _ _ h2, h3, h4, contains_false _ _ h5, option_all_some _ h6,
    option_all_some _ h7, ?_⟩
  rcases h8 with h8 | h8
  · exact Or.inl h8
  · exact Or.inr (contains_false _ _ h8)

theorem captureOutput_capture (lb : List Char) (p : Part)
    (hlb : ∀ c ∈ lb, isSpace c = true) (hp : p.admissible = true) :
    captureOutput (p.capture lb) = p.output := by
  obtain ⟨_, hq, _, _, hnl, hhead, hlast, hcl⟩ := p.admissible_facts hp
  have hfilter : p.value.filter (· != '\n') = p.value := by
    rw [List.filter_eq_self]
    intro c hc
    have : c ≠ '\n' := fun h => hnl (h ▸ hc)
    simpa using this
  cases hclosed : p.closed with
  | true =>
    have hcap : p.capture lb = p.name ++ ([] ++ ['"']) ++ (lb ++ lb ++ p.value ++ lb) := by
      simp [Part.capture, hclosed, List.append_assoc]
    have hidx : indexOf (p.capture lb) ['"'] = some p.name.length := by
      rw [hcap]
      exact indexOf_first p.name [] (lb ++ lb ++ p.value ++ lb) '"'
        (by simpa using containsSeq_singleton p.name '"' hq)
    have htake : (p.capture lb).take p.name.length = p.name := by
      rw [hcap, List.append_assoc, List.take_left]
    have hdrop : (p.capture lb).drop (p.name.length + 1) = (lb ++ lb) ++ p.value ++ lb := by
      have : p.capture lb = (p.name ++ ['"']) ++ (lb ++ lb ++ p.value ++ lb) := by
        simp [Part.capture, hclosed, List.append_assoc]
      rw [this]
      have hl : p.name.length + 1 = (p.name ++ ['"']).length := by simp
      rw [hl, List.drop_left]
    have htrim : trimmed ((lb ++ lb) ++ p.value ++ lb) = p.value :=
      trimmed_padded (lb ++ lb) lb p.value (by
        intro c hc
        rcases List.mem_append.1 hc with hc | hc <;> exact hlb c hc) hlb hhead hlast
    unfold captureOutput
    rw [hidx]
    simp only [htake, hdrop, htrim, hfilter]
    unfold Part.output Part.wellFormed
    rw [hclosed]
    by_cases hn : p.name = []
    · simp [hn]
    · by_cases hv : p.value = []
      · simp [hv]
      · have h1 : (p.name.isEmpty || p.value.isEmpty) = false := by
          cases hne : p.name with
          | nil => exact absurd hne hn
          | cons a as =>
            cases hve : p.value with
            | nil => exact absurd hve hv
            | cons b bs => rfl
        have h2 : (true && !p.name.isEmpty && !p.value.isEmpty) = true := by
          cases hne : p.name with
          | nil => exact absurd hne hn
          | cons a as =>
            cases hve : p.value with
            | nil => exact absurd hve hv
            | cons b bs => rfl
        rw [h1, h2]
        simp
  | false =>
    have hv : '"' ∉ p.value := by
      rcases hcl with h | h
      · rw [hclosed] at h; cases h
      · exact h
    have hnot : '"' ∉ p.capture lb := by
      have hlbq : '"' ∉ lb := fun h => by
        have := hlb _ h
        exact absurd this (by decide)
      simp [Part.capture, hclosed, hq, hv, hlbq]
    have hidx : indexOf (p.capture lb) ['"'] = none :=
      (indexOf_none_iff _ _).2 (containsSeq_singleton _ _ hnot)
    unfold captureOutput
    rw [hidx]
    unfold Part.output Part.wellFormed
    rw [hclosed]
    rfl

theorem capture_marker_free (lb : List Char) (p : Part) (hne : lb ≠ [])
    (hlb : ∀ c ∈ lb, isSpace c = true) (hp : p.admissible = true) :
    containsSeq (p.capture lb ++ "------WebKitFormBoundar".toList) boundaryMarker = false := by
  obtain ⟨_, _, hname, hvalue, _, _, _, _⟩ := p.admissible_facts hp
  have hbm : boundaryMarker ≠ [] := by decide
  have hsp : ∀ c ∈ lb, c ∉ boundaryMarker := fun c hc => (isSpace_not_mem c (hlb c hc)).2.1
  cases lb with
  | nil => exact absurd rfl hne
  | cons l0 lb2 =>
    have hl0 : l0 ∉ boundaryMarker := hsp l0 (by simp)
    have hlb2 : ∀ c ∈ lb2, c ∉ boundaryMarker := fun c hc => hsp c (by simp [hc])
    have hx1 : containsSeq (p.name ++ (if p.closed then ['"'] else [])) boundaryMarker
        = false := by
      apply containsSeq_extend _ _ _ hbm _ hname
      intro c hc
      cases hcl : p.closed with
      | true =>
        rw [hcl] at hc
        simp only [if_true, List.mem_singleton] at hc
        rw [hc]; decide
      | false =>
        rw [hcl] at hc
        simp at hc
    have hinit : containsSeq "------WebKitFormBoundar".toList boundaryMarker = false := by
      decide
    have h3 : containsSeq (lb2 ++ "------WebKitFormBoundar".toList) boundaryMarker = false :=
      containsSeq_prepend _ _ _ hbm hlb2 hinit
    have h2 : containsSeq (p.value ++ l0 :: (lb2 ++ "------WebKitFormBoundar".toList))
        boundaryMarker = false :=
      containsSeq_separator _ _ _ _ hl0 hvalue h3
    have h1 : containsSeq ((lb2 ++ l0 :: lb2) ++
        (p.value ++ l0 :: (lb2 ++ "------WebKitFormBoundar".toList))) boundaryMarker = false :=
      containsSeq_prepend _ _ _ hbm (by
        intro c hc
        rcases List.mem_append.1 hc with hc | hc
        · exact hlb2 c hc
        · exact hsp c hc) h2
    have h0 := containsSeq_separator _ _ _ _ hl0 hx1 h1
    have heq : p.capture (l0 :: lb2) ++ "------WebKitFormBoundar".toList =
        (p.name ++ (if p.closed then ['"'] else [])) ++ l0 ::
          ((lb2 ++ l0 :: lb2) ++
            (p.value ++ l0 :: (lb2 ++ "------WebKitFormBoundar".toList))) := by
      simp [Part.capture, List.append_assoc]
    rw [heq]
    exact h0

theorem header_name_free (lb x0 : List Char) (p : Part) (hne : lb ≠ [])
    (hlb : ∀ c ∈ lb, isSpace c = true) (hp : p.admissible = true)
    (hx0 : ∀ y, containsSeq y namePattern = false → containsSeq (x0 ++ y) namePattern = false) :
    containsSeq ((x0 ++ p.suffix ++ lb ++ dispositionPrefix) ++ "name=".toList) namePattern
      = false := by
  obtain ⟨hsuffix, _⟩ := p.admissible_facts hp
  have hnp : namePattern ≠ [] := by decide
  have hsp : ∀ c ∈ lb, c ∉ namePattern := fun c hc => (isSpace_not_mem c (hlb c hc)).1
  cases lb with
  | nil => exact absurd rfl hne
  | cons l0 lb2 =>
    have hfix : containsSeq (dispositionPrefix ++ "name=".toList) namePattern = false := by
      decide
    have h1 : containsSeq (lb2 ++ (dispositionPrefix ++ "name=".toList)) namePattern = false :=
      containsSeq_prepend _ _ _ hnp (fun c hc => hsp c (by simp [hc])) hfix
    have h0 := containsSeq_separator _ _ _ _ (hsp l0 (by simp)) (hx0 _ hsuffix) h1
    have heq : (x0 ++ p.suffix ++ (l0 :: lb2) ++ dispositionPrefix) ++ "name=".toList =
        (x0 ++ p.suffix) ++ l0 :: (lb2 ++ (dispositionPrefix ++ "name=".toList)) := by
      simp [List.append_assoc]
    rw [heq]
    exact h0

theorem convertLoop_partsTail (lb closing : List Char) (hne : lb ≠ [])
    (hlb : ∀ c ∈ lb, isSpace c = true)
    (hclosing : containsSeq closing namePattern = false) :
    ∀ (parts : List Part) (x0 : List Char),
      (∀ p ∈ parts, p.admissible = true) →
      (∀ y, containsSeq y namePattern = false →
        containsSeq (x0 ++ y) namePattern = false) →
      convertLoop (x0 ++ partsTail lb closing parts) = parts.flatMap Part.output := by
  intro parts
  induction parts with
  | nil =>
    intro x0 _ hx0
    apply convertLoop_of_no_match
    have hnil : partsTail lb closing [] = closing := rfl
    unfold rxIndexIn
    rw [hnil, (indexOf_none_iff _ _).2 (hx0 _ hclosing)]
  | cons p rest ih =>
    intro x0 hadm hx0
    have hp := hadm p (by simp)
    have hs : x0 ++ partsTail lb closing (p :: rest) =
        (x0 ++ p.suffix ++ lb ++ dispositionPrefix) ++ namePattern ++ p.capture lb ++
          boundaryMarker ++ partsTail lb closing rest := by
      simp [partsTail, List.append_assoc]
    have hrx := rxIndexIn_of_parts (x0 ++ p.suffix ++ lb ++ dispositionPrefix) (p.capture lb)
      (partsTail lb closing rest) (header_name_free lb x0 p hne hlb hp hx0)
      (capture_marker_free lb p hne hlb hp)
    rw [hs, convertLoop_step _ _ _ _ hrx, drop_of_parts, captureOutput_capture lb p hlb hp]
    have := ih [] (fun q hq => hadm q (by simp [hq])) (fun y hy => by simpa using hy)
    rw [List.nil_append] at this
    rw [this]
    simp

theorem toQString_of_ascii (s : List Char) (h : asciiText s = true) : toQString s = s := by
  unfold toQString
  rw [List.takeWhile_eq_self_iff]
  intro c hc
  unfold asciiText at h
  have := List.all_eq_true.1 h c hc
  simp only [Bool.and_eq_true, decide_eq_true_eq] at this
  have hne : c ≠ '\x00' := by
    intro h0
    rw [h0] at this
    exact absurd this.1 (by decide)
  simpa using hne

theorem convertLoop_single (s : List Char) (i : Nat) (string : List Char) (len : Nat)
    (h1 : rxIndexIn s = some (i, string, len))
    (h2 : rxIndexIn (s.drop (i + len)) = none) :
    convertLoop s = captureOutput string := by
  rw [convertLoop_step s i string len h1, convertLoop_of_no_match _ h2, List.append_nil]

theorem convert_multipartPayload (lb closing : List Char) (parts : List Part)
    (hne : lb ≠ []) (hlb : ∀ c ∈ lb, isSpace c = true)
    (hclosing : containsSeq closing namePattern = false)
    (hadm : ∀ p ∈ parts, p.admissible = true)
    (hascii : asciiText (multipartPayload lb closing parts) = true) :
    convertWebKitFormBoundaryIfNecessary (multipartPayload lb closing parts) =
      parts.flatMap Part.output := by
  have hc : containsSeq (multipartPayload lb closing parts) boundaryMarker = true :=
    (containsSeq_iff _ _).2 ⟨[], partsTail lb closing parts, by simp [multipartPayload]⟩
  unfold convertWebKitFormBoundaryIfNecessary
  rw [hc]
  simp only [Bool.not_true, Bool.false_eq_true, if_false]
  rw [toQString_of_ascii _ hascii]
  unfold multipartPayload
  apply convertLoop_partsTail lb closing hne hlb hclosing parts boundaryMarker hadm
  intro y hy
  have hbm : boundaryMarker = "------WebKitFormBoundar".toList ++ 'y' :: [] := by decide
  have := containsSeq_separator namePattern "------WebKitFormBoundar".toList y 'y'
    (by decide) (by decide) hy
  rw [hbm]
  simpa [List.append_assoc] using this

/- ## C12 -/

theorem flatMap_output_filter (parts : List Part) :
    parts.flatMap Part.output =
      (parts.filter Part.wellFormed).flatMap fun p => p.name ++ '=' :: p.value ++ ['&'] := by
  induction parts with
  | nil => rfl
  | cons p rest ih =>
    rw [List.flatMap_cons, ih, List.filter_cons]
    unfold Part.output
    by_cases hw : p.wellFormed = true
    · rw [if_pos hw, if_pos hw, List.flatMap_cons]
    · rw [if_neg hw, if_neg hw]
      rfl

set_option maxRecDepth 20000 in
/-- C12 fails as stated, at two payloads. In the first, both parts meet every
condition of the claim and the value of the first holds a 0 byte: the string
handed to the pattern ends in front of that byte, no boundary marker follows
name=", nothing matches and the result is empty, not a=b(0)c&d=e&. In the
second, the header goes on behind the closing quote (name="f"; size=2): the
value written is what follows the quote, not "hi". -/
theorem convert_well_formed_counterexample :
    (nulParts.all fun p =>
      p.admissible && p.wellFormed && !containsSeq p.suffix boundaryMarker &&
      !containsSeq p.name namePattern && !containsSeq p.value namePattern) = true ∧
    containsSeq "0bBp--\r\n".toList namePattern = false ∧
    (nulParts.flatMap fun p => p.name ++ '=' :: p.value ++ ['&']) =
      ['a', '=', 'b', '\x00', 'c', '&', 'd', '=', 'e', '&'] ∧
    convertWebKitFormBoundaryIfNecessary
        (multipartPayload "\r\n".toList "0bBp--\r\n".toList nulParts) = [] ∧
    convertWebKitFormBoundaryIfNecessary longHeaderPayload =
      "f=; size=2\r\rhi&".toList := by
  refine ⟨by decide, by decide, by decide, ?_, ?_⟩
  · exact convert_of_marker_no_match _ (by decide) (by decide)
  · have hm : containsSeq longHeaderPayload boundaryMarker = true := by decide
    have hq : toQString longHeaderPayload = longHeaderPayload := by decide
    have h1 : rxIndexIn longHeaderPayload =
        some (62, "f\"; size=2\r\n\r\nhi\r\n".toList, 6 + 18 + 24) := by decide
    have h2 : rxIndexIn (longHeaderPayload.drop (62 + (6 + 18 + 24))) = none := by decide
    unfold convertWebKitFormBoundaryIfNecessary
    rw [hm, hq]
    simp only [Bool.not_true, Bool.false_eq_true, if_false]
    rw [convertLoop_single _ _ _ _ h1 h2]
    decide

/-- C12 as amended: for a multipart payload of non-zero ASCII bytes made of N
parts, each a boundary line (the marker and a suffix), the header
Content-Disposition: form-data; name="NAME" ending at the closing quote, a blank
line, VALUE and a line break, followed by a closing boundary, where every NAME
is non-empty and holds no '"' and no marker, every VALUE is non-empty, holds no
marker and no newline and neither starts nor ends with white space, and no
boundary suffix holds name=", convertWebKitFormBoundaryIfNecessary returns
NAME_1=VALUE_1&...&NAME_N=VALUE_N& in the order of the parts, names and values
copied verbatim. The line break lb is any non-empty run of white space. -/
theorem convert_well_formed_parts (lb closing : List Char) (parts : List Part)
    (hne : lb ≠ []) (hlb : ∀ c ∈ lb, isSpace c = true)
    (hclosing : containsSeq closing namePattern = false)
    (hparts : ∀ p ∈ parts, p.admissible = true ∧ p.wellFormed = true)
    (hascii : asciiText (multipartPayload lb closing parts) = true) :
    convertWebKitFormBoundaryIfNecessary (multipartPayload lb closing parts) =
      parts.flatMap fun p => p.name ++ '=' :: p.value ++ ['&'] := by
  rw [convert_multipartPayload lb closing parts hne hlb hclosing (fun p hp => (hparts p hp).1)
    hascii, flatMap_output_filter]
  have : parts.filter Part.wellFormed = parts := by
    rw [List.filter_eq_self]
    intro p hp
    exact (hparts p hp).2
  rw [this]

set_option maxRecDepth 20000 in
/-- C12 as amended, on a payload of two parts with CRLF line breaks; the value
of the first part holds '=' and '&', which are copied as they are. -/
theorem convert_well_formed_parts_witness :
    multipartPayload "\r\n".toList "0bBp--\r\n".toList goodParts =
      ("------WebKitFormBoundary0bBp\r\n" ++
       "Content-Disposition: form-data; name=\"user\"\r\n\r\nal=i&ce\r\n" ++
       "------WebKitFormBoundary0bBp\r\n" ++
       "Content-Disposition: form-data; name=\"pw\"\r\n\r\ns \"q\" t\r\n" ++
       "------WebKitFormBoundary0bBp--\r\n").toList ∧
    convertWebKitFormBoundaryIfNecessary
        (multipartPayload "\r\n".toList "0bBp--\r\n".toList goodParts) =
      "user=al=i&ce&pw=s \"q\" t&".toList :=
  ⟨by decide,
   convert_well_formed_parts "\r\n".toList "0bBp--\r\n".toList goodParts (by decide)
    (by decide) (by decide) (by decide) (by decide)⟩

/- ## C13 -/

end PageFormCompleter

